import Mathlib

/-!
# LRU key-store cache (`2-race-in-cache/main.go`)

A shallow embedding of `KeyStoreCache`: the index map `cache`, the recency
list `pages` (Go's `container/list`), `New` and `Get`, with the properties of
sequential runs of `Get`, of the interleavings of concurrent calls, and of the
lock discipline.  The definitions of the second program, the producer and
consumer of `1-producer-consumer/main.go`, follow those of the cache; the
theorems come after all the definitions.

Modelling conventions.

* A `*list.Element` is a heap object with an identity and a payload that the
  program never overwrites after `PushFront`.  It is represented by
  `Element`, a pair of an address and the `page` it carries; membership of an
  element in a list (`e.list == l` in `container/list`) is membership of its
  address among the addresses of `pages`.
* A Go `map[string]*list.Element` is a finite association list with the three
  operations the program uses (`m[k]` / comma-ok lookup, `m[k] = v`,
  `delete(m, k)`) and `len`.
* The loader `func(string) string` may have side effects and may panic
  (`Loader.Load` panics on a database error).  It is a transition function on
  an arbitrary loader state `L` returning an `Outcome`; it has no access to
  the cache it serves.
* `singleflight.Group.Do` is a library function.  When no other call is in
  progress it runs the function it is given and returns its result; a panic of
  that function leaves `Do` after the group has forgotten the call.
* The capacity is the constant `CacheSize`; the operations are written over a
  capacity parameter and `Get` instantiates it with `CacheSize`.
-/

namespace KeyStore

/-- CacheSize determines how big the cache can grow. -/
def CacheSize : Nat := 100

/-- The payload of a list element: `type page struct { Key, Value string }`. -/
structure page where
  Key : String
  Value : String
deriving DecidableEq, Repr

/-- A `*list.Element`: the identity of the heap cell (`addr`) and the value
stored in it (`Value`, always a `page` in this program). -/
structure Element where
  addr : Nat
  Value : page
deriving DecidableEq, Repr

/-- How a Go call ends: it returns a value or it panics. -/
inductive Outcome where
  | returned (v : String)
  | panicked (err : String)
deriving DecidableEq, Repr

/-! ## `map[string]*list.Element` -/

/-- The Go map, as an association list. -/
abbrev GoMap := List (String × Element)

/-- Comma-ok lookup `e, ok := m[key]`. -/
def GoMap.get (m : GoMap) (key : String) : Option Element :=
  match m with
  | [] => none
  | (k, e) :: rest => if k = key then some e else GoMap.get rest key

/-- Builtin `delete(m, key)`. -/
def GoMap.delete (m : GoMap) (key : String) : GoMap :=
  m.filter (fun kv => decide (kv.1 ≠ key))

/-- Assignment `m[key] = e`: replaces the binding of `key` if there is one. -/
def GoMap.set (m : GoMap) (key : String) (e : Element) : GoMap :=
  (key, e) :: GoMap.delete m key

/-- Builtin `len(m)`. -/
def GoMap.len (m : GoMap) : Nat := m.length

/-- The keys bound in the map. -/
def GoMap.keys (m : GoMap) : List String := m.map Prod.fst

/-! ## `container/list` -/

/-- The list `l`, front first. -/
abbrev GoList := List Element

/-- Whether `e.list == l`: the cell `e` is currently linked into `l`. -/
def GoList.owns (l : GoList) (e : Element) : Bool :=
  l.any (fun x => decide (x.addr = e.addr))

/-- List operation `l.Remove(e)`: unlinks `e` if it is an element of `l`. -/
def GoList.Remove (l : GoList) (e : Element) : GoList :=
  l.filter (fun x => decide (x.addr ≠ e.addr))

/-- List operation `l.MoveToFront(e)`: if `e` is not an element of `l` the
list is not modified; otherwise `e` is unlinked and relinked after the root. -/
def GoList.MoveToFront (l : GoList) (e : Element) : GoList :=
  if GoList.owns l e then e :: GoList.Remove l e else l

/-- List operation `l.Back()`: the last element, or nil. -/
def GoList.Back (l : GoList) : Option Element := l.getLast?

/-- List operation `l.Front()`: the first element, or nil. -/
def GoList.Front (l : GoList) : Option Element := l.head?

/-! ## The cache -/

/-- The struct `KeyStoreCache`.  `cache` and `pages` are the fields of the
source; `fresh` is the allocator: the address the next `PushFront` gives to
the cell it creates.  The field `load` is fixed by `New` and is passed to
`Get` as an argument; `mu` and `sf` only matter to concurrent callers. -/
structure KeyStoreCache where
  cache : GoMap
  pages : GoList
  fresh : Nat
deriving DecidableEq, Repr

/-- New creates a new KeyStoreCache: an empty map and the zero `list.List`. -/
def New : KeyStoreCache := { cache := [], pages := [], fresh := 0 }

/-- List operation `k.pages.PushFront(p)`: allocates a cell for `p` and links
it at the front. -/
def KeyStoreCache.PushFront (k : KeyStoreCache) (p : page) : KeyStoreCache :=
  { k with pages := { addr := k.fresh, Value := p } :: k.pages, fresh := k.fresh + 1 }

/-- The fast path of `Get` under the read lock (lines 55-58, 67):
`e, ok := k.cache[key]`. -/
def KeyStoreCache.lookup (k : KeyStoreCache) (key : String) : Option Element :=
  GoMap.get k.cache key

/-- The promotion under the write lock (lines 61-63):
`k.pages.MoveToFront(e)`. -/
def KeyStoreCache.promote (k : KeyStoreCache) (e : Element) : KeyStoreCache :=
  { k with pages := GoList.MoveToFront k.pages e }

/-- The eviction of lines 88-94: when the map is full, the back of the list
(if any) is deleted from the map and removed from the list. -/
def KeyStoreCache.evict (capacity : Nat) (k : KeyStoreCache) : KeyStoreCache :=
  if GoMap.len k.cache ≥ capacity then
    match GoList.Back k.pages with
    | some last =>
        { k with cache := GoMap.delete k.cache last.Value.Key,
                 pages := GoList.Remove k.pages last }
    | none => k
  else k

/-- The update under the write lock (lines 78-100), given the page `p` built
from the loaded value: the double check, the eviction and the insertion.
Returns the value `Get` returns and the new state.  `Front()` right after
`PushFront` is never nil; the nil branch leaves the map as it is. -/
def KeyStoreCache.update (capacity : Nat) (k : KeyStoreCache) (key : String) (p : page) :
    String × KeyStoreCache :=
  match GoMap.get k.cache key with
  | some e => (e.Value.Value, { k with pages := GoList.MoveToFront k.pages e })
  | none =>
      let k1 := KeyStoreCache.evict capacity k
      let k2 := KeyStoreCache.PushFront k1 p
      match GoList.Front k2.pages with
      | some front => (p.Value, { k2 with cache := GoMap.set k2.cache key front })
      | none => (p.Value, k2)

/-- What one call of `Get` produces: how it ended, the cache and the loader
state it leaves, and the keys it passed to the loader, in order. -/
structure GetResult (L : Type) where
  out : Outcome
  k : KeyStoreCache
  ls : L
  loads : List String

/-- Get gets the key from cache, loads it from the source if needed; a call
that no other call overlaps, with the capacity as a parameter.  On a miss
`k.sf.Do(key, fn)` finds no call in flight and runs `fn`, that is `load(key)`;
a panic of the loader leaves `Do` and `Get` before the write lock is taken,
so the call ends with the cache it found.  The result records the keys passed
to the loader. -/
def KeyStoreCache.GetAt {L : Type} (capacity : Nat) (load : L → String → Outcome × L)
    (k : KeyStoreCache) (ls : L) (key : String) : GetResult L :=
  match KeyStoreCache.lookup k key with
  | some e =>
      { out := Outcome.returned e.Value.Value, k := KeyStoreCache.promote k e,
        ls := ls, loads := [] }
  | none =>
      match load ls key with
      | (Outcome.panicked err, ls1) =>
          { out := Outcome.panicked err, k := k, ls := ls1, loads := [key] }
      | (Outcome.returned val, ls1) =>
          let r := KeyStoreCache.update capacity k key { Key := key, Value := val }
          { out := Outcome.returned r.1, k := r.2, ls := ls1, loads := [key] }

/-- Get with the capacity of the source, `CacheSize`. -/
def KeyStoreCache.Get {L : Type} (load : L → String → Outcome × L)
    (k : KeyStoreCache) (ls : L) (key : String) : GetResult L :=
  KeyStoreCache.GetAt CacheSize load k ls key

/-- A sequential run: `Get` on each key of the list in turn, each call
starting where the previous one ended (a caller that recovers from a panic of
the loader goes on with the next key). -/
def runAt {L : Type} (capacity : Nat) (load : L → String → Outcome × L) :
    KeyStoreCache → L → List String → KeyStoreCache × L
  | k, ls, [] => (k, ls)
  | k, ls, key :: rest =>
      runAt capacity load (KeyStoreCache.GetAt capacity load k ls key).k
        (KeyStoreCache.GetAt capacity load k ls key).ls rest

/-- A sequential run with the capacity of the source. -/
def run {L : Type} (load : L → String → Outcome × L) (k : KeyStoreCache) (ls : L)
    (keys : List String) : KeyStoreCache × L :=
  runAt CacheSize load k ls keys

/-- A loader without state that returns the key itself. -/
def echo : Unit → String → Outcome × Unit := fun _ key => (Outcome.returned key, ())


/-- The outcomes of the calls of a sequential run, one per key, in order. -/
def outcomesAt {L : Type} (capacity : Nat) (load : L → String → Outcome × L) :
    KeyStoreCache → L → List String → List Outcome
  | _, _, [] => []
  | k, ls, key :: rest =>
      (KeyStoreCache.GetAt capacity load k ls key).out ::
        outcomesAt capacity load (KeyStoreCache.GetAt capacity load k ls key).k
          (KeyStoreCache.GetAt capacity load k ls key).ls rest

/-- The keys passed to the loader during a sequential run, in order. -/
def loadsAt {L : Type} (capacity : Nat) (load : L → String → Outcome × L) :
    KeyStoreCache → L → List String → List String
  | _, _, [] => []
  | k, ls, key :: rest =>
      (KeyStoreCache.GetAt capacity load k ls key).loads ++
        loadsAt capacity load (KeyStoreCache.GetAt capacity load k ls key).k
          (KeyStoreCache.GetAt capacity load k ls key).ls rest

/-- The outcomes of a sequential run with the capacity of the source. -/
def outcomes {L : Type} (load : L → String → Outcome × L) (k : KeyStoreCache) (ls : L)
    (keys : List String) : List Outcome :=
  outcomesAt CacheSize load k ls keys

/-- The loader calls of a sequential run with the capacity of the source. -/
def loads {L : Type} (load : L → String → Outcome × L) (k : KeyStoreCache) (ls : L)
    (keys : List String) : List String :=
  loadsAt CacheSize load k ls keys

/-- A call that returned (did not panic). -/
def Outcome.isReturned : Outcome → Bool
  | Outcome.returned _ => true
  | Outcome.panicked _ => false

/-- The cache states that sequential calls of `Get` reach from `New`, with any
loader and any keys. -/
def Reachable (k : KeyStoreCache) : Prop :=
  ∃ (L : Type) (load : L → String → Outcome × L) (ls : L) (keys : List String),
    (run load New ls keys).1 = k

/-- The index that a list induces: every element filed under its own key. -/
def GoList.index (l : GoList) : GoMap := l.map (fun e => (e.Value.Key, e))

/-- The keys of the pages of a list, front to back. -/
def GoList.keys (l : GoList) : List String := l.map (fun e => e.Value.Key)

/-- The addresses of the cells of a list, front to back. -/
def GoList.addrs (l : GoList) : List Nat := l.map (fun e => e.addr)

/-- The consistency of a cache state for a capacity: the map is the index of
the list, no key and no cell occurs twice in the list, the allocator is ahead
of every cell, and the list is within the capacity (a capacity of zero still
lets one entry in, see `KeyStoreCache.evict`). -/
structure Inv (capacity : Nat) (k : KeyStoreCache) : Prop where
  keys_nodup : (GoList.keys k.pages).Nodup
  addrs_nodup : (GoList.addrs k.pages).Nodup
  addrs_lt : ∀ e ∈ k.pages, e.addr < k.fresh
  index_perm : k.cache.Perm (GoList.index k.pages)
  len_le : k.pages.length ≤ max capacity 1

/-! ## The loader of the program -/

/-- Load gets the data from the database (`Loader.Load`, lines 109-116): the
value that `l.DB.Get(key)` returns, or a panic with its error when the error
is not nil.  `get` stands for `DB.Get`, which is not among the sources: a
transition on the state of the database that yields the Go pair `(val, err)`,
with `none` for a nil error. -/
def Loader.Load {D : Type} (get : D → String → (String × Option String) × D) :
    D → String → Outcome × D :=
  fun d key =>
    match get d key with
    | ((val, none), d1) => (Outcome.returned val, d1)
    | ((_, some err), d1) => (Outcome.panicked err, d1)

/-! ## Concurrent callers

Goroutines that call `Get` at the same time interleave at the granularity of
the critical sections: each section that `Get` runs under `k.mu` and each
section that `singleflight.Group.Do` runs under its own mutex is one atomic
step, and so is the call of the loader (which runs under no lock). -/

/-- The point a goroutine has reached inside `Get(key)`. -/
inductive Pc where
  /-- Before the lookup under the read lock (line 55). -/
  | start
  /-- A hit: between `RUnlock` (line 58) and `Lock` (line 61), holding the
  handle `e` and the value read from it. -/
  | promoting (e : Element) (val : String)
  /-- A miss: between `RUnlock` (line 67) and `k.sf.Do` (line 71). -/
  | entering
  /-- Inside `Do`, as the caller that registered call `c`, before `load(key)`. -/
  | loading (c : Nat)
  /-- Inside `Do`, `load(key)` has ended with `o`; call `c` is still registered. -/
  | loaded (c : Nat) (o : Outcome)
  /-- Inside `Do`, blocked on call `c` that another goroutine runs. -/
  | waiting (c : Nat)
  /-- `Do` has returned `val`; before `Lock` (line 78). -/
  | updating (val : String)
  /-- `Get` has returned `val`. -/
  | done (val : String)
  /-- `Get` has panicked. -/
  | crashed (err : String)
deriving DecidableEq, Repr

/-- Modelled from the spec: `singleflight.Group` is a library type outside the
sources.  Section 4.4 has it keep a mapping from key to the marker of the call
in progress for that key; `m` is that mapping and `calls` records, for every
marker created so far, the result of its call once the call has completed. -/
structure Group where
  m : List (String × Nat)
  calls : List (Option Outcome)
deriving DecidableEq, Repr

/-- The zero `singleflight.Group{}` that `New` stores in the field `sf`. -/
def Group.empty : Group := { m := [], calls := [] }

/-- Modelled from the spec: the first critical section of
`singleflight.Group.Do`, a library function outside the sources (section 4.4):
if a marker exists for `key` the caller registers as a waiter on it, otherwise
a marker is created and the caller is the one that invokes the loader.
Returns the new group, the marker, and whether the caller runs the loader. -/
def Group.enter (g : Group) (key : String) : Group × Nat × Bool :=
  match g.m.lookup key with
  | some c => (g, c, false)
  | none => ({ m := (key, g.calls.length) :: g.m, calls := g.calls ++ [none] },
             g.calls.length, true)

/-- Modelled from the spec: the last critical section of
`singleflight.Group.Do` for the caller that ran the loader (section 4.4): the
marker is removed and the result is delivered to the waiters. -/
def Group.finish (g : Group) (key : String) (c : Nat) (o : Outcome) : Group :=
  { m := g.m.filter (fun kc => decide (kc ≠ (key, c))), calls := g.calls.set c (some o) }

/-- Modelled from the spec: what a waiter of `singleflight.Group.Do` sees of
the call it waits for (section 4.4): nothing while the call is in progress,
then its result. -/
def Group.result (g : Group) (c : Nat) : Option Outcome :=
  (g.calls.get? c).join

/-- The shared state and the goroutines: the cache, the state of the loader,
the singleflight group, every goroutine with the key it was called on and the
point it has reached, and the keys passed to the loader so far. -/
structure System (L : Type) where
  k : KeyStoreCache
  ls : L
  sf : Group
  procs : List (String × Pc)
  loads : List String
deriving DecidableEq

/-- A cache shared by goroutines that are about to call `Get` on the given
keys, one goroutine per key of the list. -/
def spawn {L : Type} (k : KeyStoreCache) (ls : L) (keys : List String) : System L :=
  { k := k, ls := ls, sf := Group.empty, procs := keys.map (fun key => (key, Pc.start)),
    loads := [] }

/-- One atomic step of goroutine `i`; `none` when there is no such goroutine,
when it has ended, or when it is blocked. -/
def step {L : Type} (capacity : Nat) (load : L → String → Outcome × L) (s : System L)
    (i : Nat) : Option (System L) :=
  match s.procs.get? i with
  | none => none
  | some (key, Pc.start) =>
      match KeyStoreCache.lookup s.k key with
      | some e => some { s with procs := s.procs.set i (key, Pc.promoting e e.Value.Value) }
      | none => some { s with procs := s.procs.set i (key, Pc.entering) }
  | some (key, Pc.promoting e val) =>
      some { s with k := KeyStoreCache.promote s.k e, procs := s.procs.set i (key, Pc.done val) }
  | some (key, Pc.entering) =>
      match Group.enter s.sf key with
      | (g, c, true) => some { s with sf := g, procs := s.procs.set i (key, Pc.loading c) }
      | (g, c, false) => some { s with sf := g, procs := s.procs.set i (key, Pc.waiting c) }
  | some (key, Pc.loading c) =>
      some { s with ls := (load s.ls key).2, loads := s.loads ++ [key],
                    procs := s.procs.set i (key, Pc.loaded c (load s.ls key).1) }
  | some (key, Pc.loaded c (Outcome.returned val)) =>
      some { s with sf := Group.finish s.sf key c (Outcome.returned val),
                    procs := s.procs.set i (key, Pc.updating val) }
  | some (key, Pc.loaded c (Outcome.panicked err)) =>
      some { s with sf := Group.finish s.sf key c (Outcome.panicked err),
                    procs := s.procs.set i (key, Pc.crashed err) }
  | some (key, Pc.waiting c) =>
      match Group.result s.sf c with
      | none => none
      | some (Outcome.returned val) => some { s with procs := s.procs.set i (key, Pc.updating val) }
      | some (Outcome.panicked err) => some { s with procs := s.procs.set i (key, Pc.crashed err) }
  | some (key, Pc.updating val) =>
      some { s with
        k := (KeyStoreCache.update capacity s.k key { Key := key, Value := val }).2,
        procs := s.procs.set i
          (key, Pc.done (KeyStoreCache.update capacity s.k key { Key := key, Value := val }).1) }
  | some (_, Pc.done _) => none
  | some (_, Pc.crashed _) => none

/-- A schedule: the goroutines take their steps in the order of the list;
`none` if one of them cannot take its step. -/
def exec {L : Type} (capacity : Nat) (load : L → String → Outcome × L) :
    System L → List Nat → Option (System L)
  | s, [] => some s
  | s, i :: rest =>
      match step capacity load s i with
      | some s1 => exec capacity load s1 rest
      | none => none

/-- A loader that returns the key and counts its calls in its state. -/
def counting : Nat → String → Outcome × Nat := fun n key => (Outcome.returned key, n + 1)

/-- Two goroutines call `Get("a")` on a fresh cache.  Both miss in the lookup;
the first one goes through `Do` (its call is registered, runs and is removed)
before the second one enters `Do`. -/
def lateEntry : List Nat := [0, 1, 0, 0, 0, 1, 1, 1, 0, 1]

/-- The point at which a goroutine ends for an outcome of `Get`. -/
def Pc.ofOutcome : Outcome → Pc
  | Outcome.returned v => Pc.done v
  | Outcome.panicked err => Pc.crashed err

/-! ## Sample inputs -/

/-- The key made of `i` letters. -/
def keyOfLength (i : Nat) : String := String.mk (List.replicate i 'k')

/-- The `n` pairwise distinct keys of lengths `0, 1, ..., n - 1`. -/
def sampleKeys (n : Nat) : List String := (List.range n).map keyOfLength

/-- The cache after `Get("a")` with the loader `echo`. -/
def cacheWithA : KeyStoreCache := (run echo New () ["a"]).1

/-- The cache after `Get("a")` and `Get("b")` with the loader `echo`: the
entry of `"b"` is at the front of the list and the entry of `"a"` at the
back. -/
def cacheWithAB : KeyStoreCache := (run echo New () ["a", "b"]).1

/-- The cell of the entry of `"a"` in `cacheWithAB`. -/
def cellA : Element := { addr := 0, Value := { Key := "a", Value := "a" } }

/-- The cell of the entry of `"b"` in `cacheWithAB`. -/
def cellB : Element := { addr := 1, Value := { Key := "b", Value := "b" } }

/-- A database that is down: every `DB.Get` returns the error `"db down"`. -/
def downDB : Unit → String → (String × Option String) × Unit :=
  fun _ _ => (("", some "db down"), ())

/-- The cache after `Get` on the 100 keys of lengths 0 to 99 with the loader
`echo`: a full cache. -/
def fullCache : KeyStoreCache := (run echo New () (sampleKeys 100)).1

/-- A handle that a goroutine holds across the gap between two critical
sections still denotes its cell: the cell has been allocated, and whatever
cell of the list has its address is that very cell (cells are never rewritten
and addresses are never reused). -/
def ValidHandle (k : KeyStoreCache) (e : Element) : Prop :=
  e.addr < k.fresh ∧ ∀ x ∈ k.pages, x.addr = e.addr → x = e

/-- The consistency of the shared state under interleaving: the cache is
consistent and every handle that a goroutine obtained in the lookup and has
not promoted yet is valid. -/
def SysInv {L : Type} (capacity : Nat) (s : System L) : Prop :=
  Inv capacity s.k ∧
    ∀ p ∈ s.procs, ∀ (e : Element) (val : String), p.2 = Pc.promoting e val → ValidHandle s.k e

/-- The keys of 102 goroutines: one for each of the 100 keys of lengths 0 to
99, one more for the key of length 0, and one for the key `"new"`. -/
def staleKeys : List String := sampleKeys 100 ++ [keyOfLength 0, "new"]

/-- The first 100 goroutines run one after the other and fill the cache; then
goroutine 100 looks up the key of length 0 and obtains its handle, and
goroutine 101 runs `Get("new")` to the end, which evicts that entry. -/
def staleSchedule : List Nat :=
  (List.range 100).flatMap (fun i => List.replicate 5 i) ++ [100, 101, 101, 101, 101, 101]

/-- The state that `staleSchedule` reaches: goroutine 100 is about to promote
a handle whose entry is no longer in the list. -/
def staleState : System Unit :=
  (exec CacheSize echo (spawn New () staleKeys) staleSchedule).getD (spawn New () [])

/-- The cell of the first entry that the fill inserts. -/
def firstCell : Element :=
  { addr := 0, Value := { Key := keyOfLength 0, Value := keyOfLength 0 } }

/-! ## The lock discipline of `Get`

What one call of `Get` does to the mutex `k.mu`, to the shared map and list,
and to the loader, in program order. -/

/-- An operation of a call of `Get` on the mutex `mu`, on the shared fields
`cache` and `pages`, or on the loader. -/
inductive Event where
  /-- The call `k.mu.RLock()`. -/
  | RLock
  /-- The call `k.mu.RUnlock()`. -/
  | RUnlock
  /-- The call `k.mu.Lock()`. -/
  | Lock
  /-- The call `k.mu.Unlock()`, direct or deferred. -/
  | Unlock
  /-- A read of `cache` or `pages`. -/
  | Read
  /-- A mutation of `cache` or `pages`. -/
  | Write
  /-- The call `load(key)` inside `k.sf.Do`. -/
  | Load (key : String)
deriving DecidableEq, Repr

/-- The operations of the write-locked tail of `Get` (lines 78-100): `Lock`,
the double check (line 82), then either `MoveToFront` and the read of the
value (lines 83-84), or `len` (line 88), the eviction (`Back`, `delete`,
`Remove`, lines 89-92) and the insertion (`PushFront`, `Front`, the map
assignment, lines 97-98); and the deferred `Unlock` that runs at whichever
`return` ends the call. -/
def KeyStoreCache.updateEvents (capacity : Nat) (k : KeyStoreCache) (key : String) :
    List Event :=
  [Event.Lock, Event.Read] ++
    (match GoMap.get k.cache key with
      | some _ => [Event.Write, Event.Read]
      | none =>
          [Event.Read] ++
          (if GoMap.len k.cache ≥ capacity then
            match GoList.Back k.pages with
            | some _ => [Event.Read, Event.Write, Event.Write]
            | none => [Event.Read]
          else []) ++ [Event.Write, Event.Read, Event.Write]) ++
    [Event.Unlock]

/-- The operations of one call of `Get`, in program order: the read-locked
lookup (lines 55-58 or 55-67); on a hit the write-locked `MoveToFront` (lines
61-63); on a miss the call of the loader inside `k.sf.Do` (lines 71-73) and,
unless the loader panics, the write-locked tail. -/
def KeyStoreCache.GetEvents {L : Type} (capacity : Nat) (load : L → String → Outcome × L)
    (k : KeyStoreCache) (ls : L) (key : String) : List Event :=
  match KeyStoreCache.lookup k key with
  | some _ =>
      [Event.RLock, Event.Read, Event.Read, Event.RUnlock,
        Event.Lock, Event.Write, Event.Unlock]
  | none =>
      [Event.RLock, Event.Read, Event.RUnlock, Event.Load key] ++
        (match (load ls key).1 with
          | Outcome.panicked _ => []
          | Outcome.returned _ => KeyStoreCache.updateEvents capacity k key)

/-- What a call holds of the mutex `mu`: the number of read locks and of write
locks it has taken and not released. -/
structure Held where
  readers : Nat
  writers : Nat
deriving DecidableEq, Repr

/-- The effect of one operation on what the call holds; `none` when the call
cannot go on: `RUnlock` or `Unlock` of a lock it does not hold (a fatal error
of `sync`), or a lock request that its own holdings block for ever. -/
def Held.apply (h : Held) : Event → Option Held
  | Event.RLock => if h.writers = 0 then some { h with readers := h.readers + 1 } else none
  | Event.RUnlock => if h.readers = 0 then none else some { h with readers := h.readers - 1 }
  | Event.Lock =>
      if h.readers = 0 ∧ h.writers = 0 then some { h with writers := 1 } else none
  | Event.Unlock => if h.writers = 0 then none else some { h with writers := h.writers - 1 }
  | Event.Read => some h
  | Event.Write => some h
  | Event.Load _ => some h

/-- What the call holds after a sequence of operations, starting with
nothing; `none` if it could not go through all of them. -/
def Held.after (es : List Event) : Option Held :=
  es.foldl (fun h e => h.bind (fun x => Held.apply x e)) (some { readers := 0, writers := 0 })

/-- The keys of the `Load` operations of a sequence, in order. -/
def Event.loadKeys : List Event → List String
  | [] => []
  | Event.Load key :: rest => key :: Event.loadKeys rest
  | _ :: rest => Event.loadKeys rest

/-- The discipline at position `n` of a sequence of operations: a `Load` is
made with nothing held, a `Read` with a read or write lock held, a `Write`
with the write lock held. -/
def Event.disciplinedAt (es : List Event) (n : Nat) : Bool :=
  match es.get? n, Held.after (es.take n) with
  | some (Event.Load _), some h => decide (h.readers = 0 ∧ h.writers = 0)
  | some Event.Read, some h => decide (0 < h.readers ∨ 0 < h.writers)
  | some Event.Write, some h => decide (0 < h.writers)
  | some _, some _ => true
  | some _, none => false
  | none, _ => true

/-- The discipline at every position of a sequence of operations. -/
def Event.disciplined (es : List Event) : Bool :=
  (List.range es.length).all (Event.disciplinedAt es)

/-! ## The reference model of the recency order -/

/-- The distinct keys of a list, each at the place of its first occurrence. -/
def distinct : List String → List String
  | [] => []
  | x :: xs => x :: (distinct xs).filter (fun y => decide (y ≠ x))

/-- The distinct keys of a sequence of accesses, ordered by most recent
access first. -/
def mostRecentFirst (keys : List String) : List String := distinct keys.reverse

/-- The reference model of the cache contents after a sequence of accesses:
the distinct keys of the sequence ordered by most recent access first,
truncated to the first `capacity` of them. -/
def lruReference (capacity : Nat) (keys : List String) : List String :=
  (mostRecentFirst keys).take capacity

end KeyStore

/-!
# Producer and consumer (`1-producer-consumer/main.go`)

The producer goroutine reads tweets from a stream and sends them on an
unbuffered channel; the consumer goroutine receives and classifies them;
`main` waits for both on a `sync.WaitGroup`.  The three run concurrently and
interleave at the granularity of the statements below; a send on the
unbuffered channel and the matching receive are one joint step.
-/

namespace ProducerConsumer

/-- What the program observes of a `*Tweet`: the field `Username` and the
result of the method `IsTalkingAboutGo`.  The type and the method are
declared outside the sources. -/
structure Tweet where
  Username : String
  IsTalkingAboutGo : Bool
deriving DecidableEq, Repr

/-- Stream method `stream.Next()`: the next tweet and the rest of the stream,
or `none` for the error `ErrEOF` when the stream is exhausted.  The stream is
the list of the tweets it has still to yield. -/
def Next (stream : List Tweet) : Option Tweet × List Tweet :=
  match stream with
  | [] => (none, [])
  | t :: rest => (some t, rest)

/-- The line that the consumer prints for a tweet (lines 40-44):
`fmt.Println` writes its operands separated by a space. -/
def line (t : Tweet) : String :=
  if t.IsTalkingAboutGo then t.Username ++ " " ++ "\ttweets about golang"
  else t.Username ++ " " ++ "\tdoes not tweet about golang"

/-- The point the producer goroutine has reached (lines 21-31). -/
inductive Producer where
  /-- At `stream.Next()` (line 25). -/
  | next
  /-- At the send `tweetStream <- tweet` (line 29), blocked until the consumer
  receives. -/
  | sending (t : Tweet)
  /-- Returned from the loop (line 27); the deferred `close(tweetStream)` is
  next. -/
  | closing
  /-- The channel is closed; the deferred `wg.Done()` is next. -/
  | signalling
  /-- The goroutine has ended. -/
  | finished
deriving DecidableEq, Repr

/-- The point the consumer goroutine has reached (lines 37-46). -/
inductive Consumer where
  /-- At the receive of `for t := range tweetStream` (line 39). -/
  | receiving
  /-- In the body of the loop with the tweet `t` (lines 40-44). -/
  | handling (t : Tweet)
  /-- The loop has ended; the deferred `wg.Done()` is next. -/
  | signalling
  /-- The goroutine has ended. -/
  | finished
deriving DecidableEq, Repr

/-- The state of the program after `main` has run `wg.Add(2)` and started both
goroutines: the rest of the stream, the two goroutines, whether the channel is
closed, the counter of the wait group, whether `main` is still blocked in
`wg.Wait()`, and what has been observed so far: the tweets that went over the
channel and the lines printed. -/
structure State where
  stream : List Tweet
  producer : Producer
  closed : Bool
  consumer : Consumer
  wg : Nat
  waiting : Bool
  sent : List Tweet
  out : List String
deriving DecidableEq, Repr

/-- The state in which `main` reaches `wg.Wait()` (line 59) for a stream that
yields the given tweets. -/
def start (tweets : List Tweet) : State :=
  { stream := tweets, producer := Producer.next, closed := false,
    consumer := Consumer.receiving, wg := 2, waiting := true, sent := [], out := [] }

/-- The steps of the program. -/
inductive Action where
  /-- The producer calls `stream.Next()` and, on `ErrEOF`, leaves the loop. -/
  | produce
  /-- The send of the producer meets the receive of the consumer. -/
  | transfer
  /-- The producer runs the deferred `close(tweetStream)`. -/
  | close
  /-- The producer runs the deferred `wg.Done()`. -/
  | producerDone
  /-- The consumer classifies the tweet it holds and prints the line. -/
  | handle
  /-- The consumer finds the channel closed and leaves the loop. -/
  | drain
  /-- The consumer runs the deferred `wg.Done()`. -/
  | consumerDone
  /-- The call `wg.Wait()` of `main` returns. -/
  | wake
deriving DecidableEq, Repr

/-- One step; `none` when the step cannot be taken in the state (the goroutine
is elsewhere or is blocked). -/
def step (s : State) : Action → Option State
  | Action.produce =>
      match s.producer with
      | Producer.next =>
          match Next s.stream with
          | (some t, rest) => some { s with stream := rest, producer := Producer.sending t }
          | (none, rest) => some { s with stream := rest, producer := Producer.closing }
      | _ => none
  | Action.transfer =>
      match s.producer, s.consumer, s.closed with
      | Producer.sending t, Consumer.receiving, false =>
          some { s with producer := Producer.next, consumer := Consumer.handling t,
                        sent := s.sent ++ [t] }
      | _, _, _ => none
  | Action.close =>
      match s.producer, s.closed with
      | Producer.closing, false => some { s with closed := true, producer := Producer.signalling }
      | _, _ => none
  | Action.producerDone =>
      match s.producer, s.wg with
      | Producer.signalling, n + 1 => some { s with wg := n, producer := Producer.finished }
      | _, _ => none
  | Action.handle =>
      match s.consumer with
      | Consumer.handling t =>
          some { s with out := s.out ++ [line t], consumer := Consumer.receiving }
      | _ => none
  | Action.drain =>
      match s.consumer, s.closed with
      | Consumer.receiving, true => some { s with consumer := Consumer.signalling }
      | _, _ => none
  | Action.consumerDone =>
      match s.consumer, s.wg with
      | Consumer.signalling, n + 1 => some { s with wg := n, consumer := Consumer.finished }
      | _, _ => none
  | Action.wake =>
      match s.waiting, s.wg with
      | true, 0 => some { s with waiting := false }
      | _, _ => none

/-- A schedule: the steps are taken in the order of the list; `none` if one of
them cannot be taken. -/
def exec : State → List Action → Option State
  | s, [] => some s
  | s, a :: rest =>
      match step s a with
      | some s1 => exec s1 rest
      | none => none

/-- The state in which everything has ended for a stream of the given tweets:
the stream is exhausted, all tweets went over the channel in order, the
channel is closed, one line per tweet was printed in order, both goroutines
have ended and `wg.Wait()` has returned. -/
def final (tweets : List Tweet) : State :=
  { stream := [], producer := Producer.finished, closed := true,
    consumer := Consumer.finished, wg := 0, waiting := false, sent := tweets,
    out := tweets.map line }

/-- The steps that the producer has still to take, the stream apart. -/
def Producer.rank : Producer → Nat
  | Producer.next => 3
  | Producer.sending _ => 5
  | Producer.closing => 2
  | Producer.signalling => 1
  | Producer.finished => 0

/-- The steps that the consumer has still to take, the channel apart. -/
def Consumer.rank : Consumer → Nat
  | Consumer.receiving => 2
  | Consumer.handling _ => 3
  | Consumer.signalling => 1
  | Consumer.finished => 0

/-- The number of steps that remain: three for each tweet still in the stream
(read, transfer, handle), the steps of the goroutines, and the return of
`wg.Wait()`. -/
def remaining (s : State) : Nat :=
  3 * s.stream.length + s.producer.rank + s.consumer.rank + (if s.waiting then 1 else 0)

/-- The tweet that the producer holds, if it is at the send. -/
def Producer.holding : Producer → List Tweet
  | Producer.sending t => [t]
  | _ => []

/-- The line that the consumer has still to print for the tweet it holds. -/
def Consumer.owing : Consumer → List String
  | Consumer.handling t => [line t]
  | _ => []

/-- Whether the producer has left its loop. -/
def Producer.pastLoop : Producer → Bool
  | Producer.next => false
  | Producer.sending _ => false
  | _ => true

/-- Whether the producer has closed the channel. -/
def Producer.hasClosed : Producer → Bool
  | Producer.signalling => true
  | Producer.finished => true
  | _ => false

/-- Whether the consumer has left its loop. -/
def Consumer.pastLoop : Consumer → Bool
  | Consumer.signalling => true
  | Consumer.finished => true
  | _ => false

/-- The consistency of a state for a stream of the given tweets. -/
structure Consistent (tweets : List Tweet) (s : State) : Prop where
  tweets_eq : tweets = s.sent ++ s.producer.holding ++ s.stream
  lines_eq : s.sent.map line = s.out ++ s.consumer.owing
  eof : s.producer.pastLoop = true → s.stream = []
  closed_iff : s.closed = s.producer.hasClosed
  drained : s.consumer.pastLoop = true → s.closed = true
  wg_eq : s.wg = (if s.producer = Producer.finished then 0 else 1) +
    (if s.consumer = Consumer.finished then 0 else 1)
  woken : s.waiting = false → s.wg = 0

/-- Two sample tweets. -/
def sampleTweets : List Tweet :=
  [{ Username := "davecheney", IsTalkingAboutGo := true },
   { Username := "beertocode", IsTalkingAboutGo := false }]

end ProducerConsumer

namespace KeyStore

/-! ## Basic facts about the map and the list -/

theorem GoMap.get_eq_none_iff (m : GoMap) (key : String) :
    GoMap.get m key = none ↔ key ∉ GoMap.keys m := by
  induction m with
  | nil => simp [GoMap.get, GoMap.keys]
  | cons kv rest ih =>
      obtain ⟨k, e⟩ := kv
      by_cases h : k = key
      · simp [GoMap.get, GoMap.keys, h]
      · have h2 : ¬ key = k := fun h3 => h h3.symm
        simp only [GoMap.get, if_neg h, ih]
        simp [GoMap.keys, h2]

theorem GoMap.mem_of_get (m : GoMap) (key : String) (e : Element)
    (h : GoMap.get m key = some e) : (key, e) ∈ m := by
  induction m with
  | nil => simp [GoMap.get] at h
  | cons kv rest ih =>
      obtain ⟨k, x⟩ := kv
      by_cases hk : k = key
      · simp only [GoMap.get, if_pos hk, Option.some.injEq] at h
        simp [hk, h]
      · simp only [GoMap.get, if_neg hk] at h
        exact List.mem_cons_of_mem _ (ih h)

theorem GoMap.get_of_mem (m : GoMap) (key : String) (e : Element)
    (hnd : (GoMap.keys m).Nodup) (h : (key, e) ∈ m) : GoMap.get m key = some e := by
  induction m with
  | nil => simp at h
  | cons kv rest ih =>
      obtain ⟨k, x⟩ := kv
      simp only [GoMap.keys, List.map_cons, List.nodup_cons] at hnd
      rcases List.mem_cons.mp h with heq | hmem
      · simp only [Prod.mk.injEq] at heq
        simp [GoMap.get, heq.1, heq.2]
      · have hk : k ≠ key := by
          intro hk
          apply hnd.1
          rw [hk]
          exact List.mem_map_of_mem Prod.fst hmem
        simp only [GoMap.get, if_neg hk]
        exact ih hnd.2 hmem

theorem GoMap.delete_of_not_mem (m : GoMap) (key : String) (h : key ∉ GoMap.keys m) :
    GoMap.delete m key = m := by
  unfold GoMap.delete
  rw [List.filter_eq_self]
  intro kv hkv
  have : kv.1 ≠ key := by
    intro heq
    apply h
    rw [← heq]
    exact List.mem_map_of_mem Prod.fst hkv
  simpa using this

theorem GoMap.get_cons (m : GoMap) (k : String) (e : Element) (x : String) :
    GoMap.get ((k, e) :: m) x = if x = k then some e else GoMap.get m x := by
  by_cases h : k = x
  · simp [GoMap.get, h]
  · have h2 : ¬ x = k := fun h3 => h h3.symm
    simp [GoMap.get, h, h2]

theorem GoMap.get_delete (m : GoMap) (a x : String) :
    GoMap.get (GoMap.delete m a) x = if x = a then none else GoMap.get m x := by
  induction m with
  | nil => simp [GoMap.delete, GoMap.get]
  | cons kv rest ih =>
      obtain ⟨k, e⟩ := kv
      unfold GoMap.delete at ih ⊢
      by_cases hk : k = a
      · have hf : List.filter (fun kv : String × Element => decide (kv.1 ≠ a)) ((k, e) :: rest) =
            List.filter (fun kv : String × Element => decide (kv.1 ≠ a)) rest := by
          rw [List.filter_cons_of_neg]
          simp [hk]
        rw [hf, ih, GoMap.get_cons]
        by_cases hx : x = a
        · simp [hx]
        · have : ¬ x = k := by rw [hk]; exact hx
          simp [hx, this]
      · have hf : List.filter (fun kv : String × Element => decide (kv.1 ≠ a)) ((k, e) :: rest) =
            (k, e) :: List.filter (fun kv : String × Element => decide (kv.1 ≠ a)) rest := by
          rw [List.filter_cons_of_pos]
          simp [hk]
        rw [hf, GoMap.get_cons, GoMap.get_cons, ih]
        by_cases hx : x = a
        · have : ¬ a = k := fun h => hk h.symm
          simp [hx, this]
        · simp [hx]

/-! ### The list operations on a list without repeated cells -/

theorem GoList.nodup_of_addrs (l : GoList) (h : (GoList.addrs l).Nodup) : l.Nodup :=
  List.Nodup.of_map _ h

theorem GoList.eq_of_addr_eq (l : GoList) (h : (GoList.addrs l).Nodup) (x e : Element)
    (hx : x ∈ l) (he : e ∈ l) (ha : x.addr = e.addr) : x = e :=
  List.inj_on_of_nodup_map h hx he ha

theorem GoList.eq_of_key_eq (l : GoList) (h : (GoList.keys l).Nodup) (x e : Element)
    (hx : x ∈ l) (he : e ∈ l) (ha : x.Value.Key = e.Value.Key) : x = e :=
  List.inj_on_of_nodup_map h hx he ha

theorem GoList.owns_of_mem (l : GoList) (e : Element) (he : e ∈ l) : GoList.owns l e = true := by
  unfold GoList.owns
  rw [List.any_eq_true]
  exact ⟨e, he, by simp⟩

theorem GoList.Remove_eq_filter_ne (l : GoList) (h : (GoList.addrs l).Nodup) (e : Element)
    (he : e ∈ l) : GoList.Remove l e = l.filter (fun x => decide (x ≠ e)) := by
  unfold GoList.Remove
  apply List.filter_congr
  intro x hx
  by_cases hxe : x = e
  · simp [hxe]
  · have : x.addr ≠ e.addr := fun ha => hxe (GoList.eq_of_addr_eq l h x e hx he ha)
    simp [hxe, this]

theorem GoList.Remove_eq_filter_key (l : GoList) (h : (GoList.addrs l).Nodup)
    (hk : (GoList.keys l).Nodup) (e : Element) (he : e ∈ l) :
    GoList.Remove l e = l.filter (fun x => decide (x.Value.Key ≠ e.Value.Key)) := by
  rw [GoList.Remove_eq_filter_ne l h e he]
  apply List.filter_congr
  intro x hx
  by_cases hxe : x = e
  · simp [hxe]
  · have : x.Value.Key ≠ e.Value.Key := fun ha => hxe (GoList.eq_of_key_eq l hk x e hx he ha)
    simp [hxe, this]

theorem GoList.MoveToFront_of_mem (l : GoList) (h : (GoList.addrs l).Nodup) (e : Element)
    (he : e ∈ l) : GoList.MoveToFront l e = e :: l.filter (fun x => decide (x ≠ e)) := by
  unfold GoList.MoveToFront
  rw [GoList.owns_of_mem l e he, if_pos rfl, GoList.Remove_eq_filter_ne l h e he]

theorem GoList.cons_filter_ne_perm (l : GoList) (h : l.Nodup) (e : Element) (he : e ∈ l) :
    (e :: l.filter (fun x => decide (x ≠ e))).Perm l := by
  have h1 : l.erase e = l.filter (fun x => decide (x ≠ e)) := by
    rw [List.Nodup.erase_eq_filter h e]
    apply List.filter_congr
    intro x _
    by_cases hxe : x = e <;> simp [hxe]
  rw [← h1]
  exact (List.perm_cons_erase he).symm

theorem GoList.Remove_last (l : GoList) (h : (GoList.addrs l).Nodup) (last : Element)
    (hl : GoList.Back l = some last) : GoList.Remove l last = l.dropLast := by
  obtain ⟨ys, rfl⟩ := List.getLast?_eq_some_iff.mp hl
  have hmem : last ∈ ys ++ [last] := by simp
  rw [GoList.Remove_eq_filter_ne _ h last hmem, List.dropLast_concat, List.filter_append]
  have hnd : (ys ++ [last]).Nodup := GoList.nodup_of_addrs _ h
  have hnot : last ∉ ys := by
    intro hin
    have := List.nodup_append.mp hnd
    exact this.2.2 hin (by simp)
  have h1 : ys.filter (fun x => decide (x ≠ last)) = ys := by
    rw [List.filter_eq_self]
    intro a ha
    have : a ≠ last := fun heq => hnot (heq ▸ ha)
    simpa using this
  rw [h1]
  simp

/-! ### Consequences of the invariant -/

theorem GoList.keys_index (l : GoList) : GoMap.keys (GoList.index l) = GoList.keys l := by
  simp [GoMap.keys, GoList.index, GoList.keys, Function.comp_def]

theorem Inv.cache_keys_perm {capacity : Nat} {k : KeyStoreCache} (h : Inv capacity k) :
    (GoMap.keys k.cache).Perm (GoList.keys k.pages) := by
  rw [← GoList.keys_index]
  exact List.Perm.map Prod.fst h.index_perm

theorem Inv.cache_keys_nodup {capacity : Nat} {k : KeyStoreCache} (h : Inv capacity k) :
    (GoMap.keys k.cache).Nodup :=
  (List.Perm.nodup_iff h.cache_keys_perm).mpr h.keys_nodup

theorem Inv.len_eq {capacity : Nat} {k : KeyStoreCache} (h : Inv capacity k) :
    GoMap.len k.cache = k.pages.length := by
  have := List.Perm.length_eq h.index_perm
  simpa [GoMap.len, GoList.index] using this

theorem Inv.get_iff {capacity : Nat} {k : KeyStoreCache} (h : Inv capacity k)
    (key : String) (e : Element) :
    GoMap.get k.cache key = some e ↔ e ∈ k.pages ∧ e.Value.Key = key := by
  constructor
  · intro hg
    have h1 : (key, e) ∈ GoList.index k.pages :=
      (List.Perm.mem_iff h.index_perm).mp (GoMap.mem_of_get _ _ _ hg)
    simp only [GoList.index, List.mem_map, Prod.mk.injEq] at h1
    obtain ⟨x, hx, hk, hxe⟩ := h1
    subst hxe
    exact ⟨hx, hk⟩
  · rintro ⟨he, hk⟩
    apply GoMap.get_of_mem _ _ _ h.cache_keys_nodup
    apply (List.Perm.mem_iff h.index_perm).mpr
    simp only [GoList.index, List.mem_map, Prod.mk.injEq]
    exact ⟨e, he, hk, rfl⟩

theorem Inv.get_none_iff {capacity : Nat} {k : KeyStoreCache} (h : Inv capacity k)
    (key : String) : GoMap.get k.cache key = none ↔ key ∉ GoList.keys k.pages := by
  rw [GoMap.get_eq_none_iff, List.Perm.mem_iff h.cache_keys_perm]

theorem Inv.New (capacity : Nat) : Inv capacity New where
  keys_nodup := by simp [KeyStore.New, GoList.keys]
  addrs_nodup := by simp [KeyStore.New, GoList.addrs]
  addrs_lt := by simp [KeyStore.New]
  index_perm := by simp [KeyStore.New, GoList.index]
  len_le := by simp [KeyStore.New]

/-! ### The promotion of a hit -/

theorem Inv.promote_eq {capacity : Nat} {k : KeyStoreCache} (h : Inv capacity k)
    (e : Element) (he : e ∈ k.pages) :
    KeyStoreCache.promote k e =
      { k with pages := e :: k.pages.filter (fun x => decide (x ≠ e)) } := by
  unfold KeyStoreCache.promote
  rw [GoList.MoveToFront_of_mem k.pages h.addrs_nodup e he]

theorem Inv.promote {capacity : Nat} {k : KeyStoreCache} (h : Inv capacity k)
    (e : Element) (he : e ∈ k.pages) : Inv capacity (KeyStoreCache.promote k e) := by
  have hp : (e :: k.pages.filter (fun x => decide (x ≠ e))).Perm k.pages :=
    GoList.cons_filter_ne_perm k.pages (GoList.nodup_of_addrs _ h.addrs_nodup) e he
  rw [h.promote_eq e he]
  exact {
    keys_nodup := (List.Perm.nodup_iff (List.Perm.map _ hp)).mpr h.keys_nodup
    addrs_nodup := (List.Perm.nodup_iff (List.Perm.map _ hp)).mpr h.addrs_nodup
    addrs_lt := fun x hx => h.addrs_lt x ((List.Perm.mem_iff hp).mp hx)
    index_perm := h.index_perm.trans (List.Perm.map _ hp).symm
    len_le := by
      have := List.Perm.length_eq hp
      have h2 := h.len_le
      simp only at this ⊢
      omega }

/-! ### The eviction -/

theorem KeyStoreCache.evict_fresh (capacity : Nat) (k : KeyStoreCache) :
    (KeyStoreCache.evict capacity k).fresh = k.fresh := by
  unfold KeyStoreCache.evict
  split
  · split <;> rfl
  · rfl

theorem KeyStoreCache.evict_of_lt (capacity : Nat) (k : KeyStoreCache)
    (h : GoMap.len k.cache < capacity) : KeyStoreCache.evict capacity k = k := by
  unfold KeyStoreCache.evict
  rw [if_neg (by omega)]

theorem Inv.evict_of_full {capacity : Nat} {k : KeyStoreCache} (h : Inv capacity k)
    (hfull : capacity ≤ GoMap.len k.cache) (last : Element)
    (hlast : GoList.Back k.pages = some last) :
    KeyStoreCache.evict capacity k =
      { cache := GoMap.delete k.cache last.Value.Key, pages := k.pages.dropLast,
        fresh := k.fresh } := by
  unfold KeyStoreCache.evict
  rw [if_pos hfull, hlast]
  simp only
  rw [GoList.Remove_last k.pages h.addrs_nodup last hlast]

theorem GoList.mem_of_Back (l : GoList) (last : Element) (h : GoList.Back l = some last) :
    last ∈ l := by
  obtain ⟨ys, rfl⟩ := List.getLast?_eq_some_iff.mp h
  simp

theorem Inv.evict {capacity : Nat} {k : KeyStoreCache} (h : Inv capacity k) :
    Inv capacity (KeyStoreCache.evict capacity k) ∧
      (KeyStoreCache.evict capacity k).pages.length + 1 ≤ max capacity 1 ∧
      (KeyStoreCache.evict capacity k).pages.Sublist k.pages := by
  by_cases hfull : capacity ≤ GoMap.len k.cache
  · cases hb : GoList.Back k.pages with
    | none =>
        have hnil : k.pages = [] := by
          simpa [GoList.Back] using hb
        have he : KeyStoreCache.evict capacity k = k := by
          unfold KeyStoreCache.evict
          rw [if_pos hfull, hb]
        rw [he]
        refine ⟨h, ?_, List.Sublist.refl _⟩
        rw [hnil]
        simp
    | some last =>
        have hmem : last ∈ k.pages := GoList.mem_of_Back _ _ hb
        have hrem : GoList.Remove k.pages last = k.pages.dropLast :=
          GoList.Remove_last k.pages h.addrs_nodup last hb
        have hsub : k.pages.dropLast.Sublist k.pages := List.dropLast_sublist _
        have hpos : 0 < k.pages.length := List.length_pos_of_mem hmem
        rw [h.evict_of_full hfull last hb]
        refine ⟨?_, ?_, hsub⟩
        · exact {
            keys_nodup := List.Nodup.sublist (List.Sublist.map _ hsub) h.keys_nodup
            addrs_nodup := List.Nodup.sublist (List.Sublist.map _ hsub) h.addrs_nodup
            addrs_lt := fun x hx => h.addrs_lt x (hsub.subset hx)
            index_perm := by
              simp only
              rw [← hrem, GoList.Remove_eq_filter_key k.pages h.addrs_nodup h.keys_nodup last hmem]
              unfold GoMap.delete GoList.index
              have h1 := List.Perm.filter (fun kv : String × Element =>
                decide (kv.1 ≠ last.Value.Key)) h.index_perm
              unfold GoList.index at h1
              rw [List.filter_map] at h1
              exact h1
            len_le := by
              have := h.len_le
              simp only [List.length_dropLast]
              omega }
        · have := h.len_le
          simp only [List.length_dropLast]
          omega
  · have hlt : GoMap.len k.cache < capacity := by omega
    rw [KeyStoreCache.evict_of_lt capacity k hlt]
    refine ⟨h, ?_, List.Sublist.refl _⟩
    rw [← h.len_eq]
    omega

/-! ### The update after a load -/

theorem Inv.update_miss_eq {capacity : Nat} {k : KeyStoreCache} (h : Inv capacity k)
    (key val : String) (hmiss : GoMap.get k.cache key = none) :
    KeyStoreCache.update capacity k key { Key := key, Value := val } =
      (val,
        { cache := (key, { addr := k.fresh, Value := { Key := key, Value := val } }) ::
            (KeyStoreCache.evict capacity k).cache,
          pages := { addr := k.fresh, Value := { Key := key, Value := val } } ::
            (KeyStoreCache.evict capacity k).pages,
          fresh := k.fresh + 1 }) := by
  obtain ⟨hinv1, _, hsub⟩ := h.evict
  have hnot : key ∉ GoList.keys k.pages := (h.get_none_iff key).mp hmiss
  have hnot1 : key ∉ GoList.keys (KeyStoreCache.evict capacity k).pages :=
    fun hin => hnot ((List.Sublist.map _ hsub).subset hin)
  have hnot2 : key ∉ GoMap.keys (KeyStoreCache.evict capacity k).cache :=
    fun hin => hnot1 ((List.Perm.mem_iff hinv1.cache_keys_perm).mp hin)
  unfold KeyStoreCache.update
  rw [hmiss]
  simp only [KeyStoreCache.PushFront, GoList.Front, List.head?_cons, GoMap.set,
    KeyStoreCache.evict_fresh]
  rw [GoMap.delete_of_not_mem _ _ hnot2]

theorem Inv.update_miss {capacity : Nat} {k : KeyStoreCache} (h : Inv capacity k)
    (key val : String) (hmiss : GoMap.get k.cache key = none) :
    Inv capacity (KeyStoreCache.update capacity k key { Key := key, Value := val }).2 := by
  obtain ⟨hinv1, hlen1, hsub⟩ := h.evict
  have hnot : key ∉ GoList.keys k.pages := (h.get_none_iff key).mp hmiss
  have hnot1 : key ∉ GoList.keys (KeyStoreCache.evict capacity k).pages :=
    fun hin => hnot ((List.Sublist.map _ hsub).subset hin)
  rw [h.update_miss_eq key val hmiss]
  exact {
    keys_nodup := by
      simp only [GoList.keys, List.map_cons, List.nodup_cons]
      exact ⟨hnot1, hinv1.keys_nodup⟩
    addrs_nodup := by
      simp only [GoList.addrs, List.map_cons, List.nodup_cons, List.mem_map, not_exists, not_and]
      refine ⟨?_, hinv1.addrs_nodup⟩
      intro x hx heq
      have := h.addrs_lt x (hsub.subset hx)
      omega
    addrs_lt := by
      intro x hx
      simp only [List.mem_cons] at hx
      rcases hx with rfl | hx
      · simp
      · have := h.addrs_lt x (hsub.subset hx)
        simp only
        omega
    index_perm := by
      simp only [GoList.index, List.map_cons]
      exact List.Perm.cons _ hinv1.index_perm
    len_le := by
      simpa using hlen1 }

/-! ### One call of `Get` -/

theorem KeyStoreCache.GetAt_hit {L : Type} (capacity : Nat) (load : L → String → Outcome × L)
    (k : KeyStoreCache) (ls : L) (key : String) (e : Element)
    (h : KeyStoreCache.lookup k key = some e) :
    KeyStoreCache.GetAt capacity load k ls key =
      { out := Outcome.returned e.Value.Value, k := KeyStoreCache.promote k e,
        ls := ls, loads := [] } := by
  unfold KeyStoreCache.GetAt
  rw [h]

theorem KeyStoreCache.GetAt_panic {L : Type} (capacity : Nat) (load : L → String → Outcome × L)
    (k : KeyStoreCache) (ls : L) (key : String) (err : String) (ls1 : L)
    (h : KeyStoreCache.lookup k key = none) (hl : load ls key = (Outcome.panicked err, ls1)) :
    KeyStoreCache.GetAt capacity load k ls key =
      { out := Outcome.panicked err, k := k, ls := ls1, loads := [key] } := by
  unfold KeyStoreCache.GetAt
  rw [h]
  simp only [hl]

theorem KeyStoreCache.GetAt_miss {L : Type} (capacity : Nat) (load : L → String → Outcome × L)
    (k : KeyStoreCache) (ls : L) (key : String) (val : String) (ls1 : L)
    (h : KeyStoreCache.lookup k key = none) (hl : load ls key = (Outcome.returned val, ls1)) :
    KeyStoreCache.GetAt capacity load k ls key =
      { out := Outcome.returned
          (KeyStoreCache.update capacity k key { Key := key, Value := val }).1,
        k := (KeyStoreCache.update capacity k key { Key := key, Value := val }).2,
        ls := ls1, loads := [key] } := by
  unfold KeyStoreCache.GetAt
  rw [h]
  simp only [hl]

theorem Inv.GetAt {L : Type} {capacity : Nat} {k : KeyStoreCache} (h : Inv capacity k)
    (load : L → String → Outcome × L) (ls : L) (key : String) :
    Inv capacity (KeyStoreCache.GetAt capacity load k ls key).k := by
  cases hlook : KeyStoreCache.lookup k key with
  | some e =>
      rw [KeyStoreCache.GetAt_hit capacity load k ls key e hlook]
      exact h.promote e ((h.get_iff key e).mp hlook).1
  | none =>
      rcases hl : load ls key with ⟨o, ls1⟩
      cases o with
      | panicked err =>
          rw [KeyStoreCache.GetAt_panic capacity load k ls key err ls1 hlook hl]
          exact h
      | returned val =>
          rw [KeyStoreCache.GetAt_miss capacity load k ls key val ls1 hlook hl]
          exact h.update_miss key val hlook

theorem Inv.runAt {L : Type} {capacity : Nat} (load : L → String → Outcome × L)
    (keys : List String) :
    ∀ (k : KeyStoreCache) (ls : L), Inv capacity k →
      Inv capacity (KeyStore.runAt capacity load k ls keys).1 := by
  induction keys with
  | nil => intro k ls h; exact h
  | cons key rest ih =>
      intro k ls h
      exact ih _ _ (h.GetAt load ls key)

theorem Reachable.inv {k : KeyStoreCache} (h : Reachable k) : Inv CacheSize k := by
  obtain ⟨L, load, ls, keys, rfl⟩ := h
  exact Inv.runAt load keys New ls (Inv.New CacheSize)

/-! ### The effect of one call on a consistent state -/

theorem KeyStoreCache.load_returned_of_miss {L : Type} (capacity : Nat)
    (load : L → String → Outcome × L) (k : KeyStoreCache) (ls : L) (key : String)
    (h : KeyStoreCache.lookup k key = none)
    (hr : (KeyStoreCache.GetAt capacity load k ls key).out.isReturned = true) :
    ∃ val ls1, load ls key = (Outcome.returned val, ls1) := by
  rcases hl : load ls key with ⟨o, ls1⟩
  cases o with
  | panicked err =>
      rw [KeyStoreCache.GetAt_panic capacity load k ls key err ls1 h hl] at hr
      simp [Outcome.isReturned] at hr
  | returned val => exact ⟨val, ls1, rfl⟩

theorem Inv.GetAt_hit_eq {L : Type} {capacity : Nat} {k : KeyStoreCache} (h : Inv capacity k)
    (load : L → String → Outcome × L) (ls : L) (key : String) (e : Element)
    (hlook : KeyStoreCache.lookup k key = some e) :
    KeyStoreCache.GetAt capacity load k ls key =
      { out := Outcome.returned e.Value.Value,
        k := { k with pages := e :: k.pages.filter (fun x => decide (x ≠ e)) },
        ls := ls, loads := [] } := by
  rw [KeyStoreCache.GetAt_hit capacity load k ls key e hlook,
    h.promote_eq e ((h.get_iff key e).mp hlook).1]

theorem Inv.GetAt_miss_eq {L : Type} {capacity : Nat} {k : KeyStoreCache} (h : Inv capacity k)
    (load : L → String → Outcome × L) (ls : L) (key val : String) (ls1 : L)
    (hlook : KeyStoreCache.lookup k key = none)
    (hl : load ls key = (Outcome.returned val, ls1)) :
    KeyStoreCache.GetAt capacity load k ls key =
      { out := Outcome.returned val,
        k := { cache := (key, { addr := k.fresh, Value := { Key := key, Value := val } }) ::
                 (KeyStoreCache.evict capacity k).cache,
               pages := { addr := k.fresh, Value := { Key := key, Value := val } } ::
                 (KeyStoreCache.evict capacity k).pages,
               fresh := k.fresh + 1 },
        ls := ls1, loads := [key] } := by
  rw [KeyStoreCache.GetAt_miss capacity load k ls key val ls1 hlook hl,
    h.update_miss_eq key val hlook]

theorem Inv.filter_ne_keys {capacity : Nat} {k : KeyStoreCache} (h : Inv capacity k)
    (e : Element) (he : e ∈ k.pages) :
    GoList.keys (k.pages.filter (fun x => decide (x ≠ e))) =
      (GoList.keys k.pages).filter (fun key => decide (key ≠ e.Value.Key)) := by
  unfold GoList.keys
  rw [List.filter_map]
  congr 1
  apply List.filter_congr
  intro x hx
  by_cases hxe : x = e
  · simp [hxe]
  · have : x.Value.Key ≠ e.Value.Key :=
      fun ha => hxe (GoList.eq_of_key_eq k.pages h.keys_nodup x e hx he ha)
    simp [hxe, this]

theorem Inv.GetAt_hit_keys {L : Type} {capacity : Nat} {k : KeyStoreCache}
    (h : Inv capacity k) (load : L → String → Outcome × L) (ls : L) (key : String)
    (hin : key ∈ GoList.keys k.pages) :
    GoList.keys (KeyStoreCache.GetAt capacity load k ls key).k.pages =
      key :: (GoList.keys k.pages).filter (fun x => decide (x ≠ key)) := by
  obtain ⟨e, he, hk⟩ := List.mem_map.mp hin
  have hlook : KeyStoreCache.lookup k key = some e := (h.get_iff key e).mpr ⟨he, hk⟩
  rw [h.GetAt_hit_eq load ls key e hlook]
  simp only
  rw [← hk, ← h.filter_ne_keys e he]
  rfl

theorem Inv.GetAt_miss_keys {L : Type} {capacity : Nat} {k : KeyStoreCache}
    (h : Inv capacity k) (load : L → String → Outcome × L) (ls : L) (key : String)
    (hnot : key ∉ GoList.keys k.pages)
    (hr : (KeyStoreCache.GetAt capacity load k ls key).out.isReturned = true) :
    GoList.keys (KeyStoreCache.GetAt capacity load k ls key).k.pages =
      key :: GoList.keys (KeyStoreCache.evict capacity k).pages := by
  have hlook : KeyStoreCache.lookup k key = none := (h.get_none_iff key).mpr hnot
  obtain ⟨val, ls1, hl⟩ := KeyStoreCache.load_returned_of_miss capacity load k ls key hlook hr
  rw [h.GetAt_miss_eq load ls key val ls1 hlook hl]
  rfl

theorem Inv.evict_keys_of_lt {capacity : Nat} {k : KeyStoreCache} (h : Inv capacity k)
    (hlt : k.pages.length < capacity) :
    GoList.keys (KeyStoreCache.evict capacity k).pages = GoList.keys k.pages := by
  rw [KeyStoreCache.evict_of_lt capacity k (by rw [h.len_eq]; exact hlt)]

theorem Inv.evict_keys_of_full {capacity : Nat} {k : KeyStoreCache} (h : Inv capacity k)
    (hfull : capacity ≤ k.pages.length) :
    GoList.keys (KeyStoreCache.evict capacity k).pages = (GoList.keys k.pages).dropLast := by
  have hfull2 : capacity ≤ GoMap.len k.cache := by rw [h.len_eq]; exact hfull
  cases hb : GoList.Back k.pages with
  | none =>
      have hnil : k.pages = [] := by simpa [GoList.Back] using hb
      unfold KeyStoreCache.evict
      rw [if_pos hfull2, hb, hnil]
      rfl
  | some last =>
      rw [h.evict_of_full hfull2 last hb]
      simp [GoList.keys]

/-! ### Runs over concatenated key lists -/

theorem runAt_append {L : Type} (capacity : Nat) (load : L → String → Outcome × L)
    (a b : List String) :
    ∀ (k : KeyStoreCache) (ls : L),
      runAt capacity load k ls (a ++ b) =
        runAt capacity load (runAt capacity load k ls a).1 (runAt capacity load k ls a).2 b := by
  induction a with
  | nil => intro k ls; rfl
  | cons key rest ih => intro k ls; exact ih _ _

theorem runAt_singleton {L : Type} (capacity : Nat) (load : L → String → Outcome × L)
    (k : KeyStoreCache) (ls : L) (key : String) :
    runAt capacity load k ls [key] =
      ((KeyStoreCache.GetAt capacity load k ls key).k,
        (KeyStoreCache.GetAt capacity load k ls key).ls) := rfl

theorem outcomesAt_singleton {L : Type} (capacity : Nat) (load : L → String → Outcome × L)
    (k : KeyStoreCache) (ls : L) (key : String) :
    outcomesAt capacity load k ls [key] = [(KeyStoreCache.GetAt capacity load k ls key).out] :=
  rfl

theorem outcomesAt_append {L : Type} (capacity : Nat) (load : L → String → Outcome × L)
    (a b : List String) :
    ∀ (k : KeyStoreCache) (ls : L),
      outcomesAt capacity load k ls (a ++ b) =
        outcomesAt capacity load k ls a ++
          outcomesAt capacity load (runAt capacity load k ls a).1
            (runAt capacity load k ls a).2 b := by
  induction a with
  | nil => intro k ls; rfl
  | cons key rest ih =>
      intro k ls
      show _ :: outcomesAt capacity load _ _ (rest ++ b) = _
      rw [ih]
      rfl

theorem loadsAt_append {L : Type} (capacity : Nat) (load : L → String → Outcome × L)
    (a b : List String) :
    ∀ (k : KeyStoreCache) (ls : L),
      loadsAt capacity load k ls (a ++ b) =
        loadsAt capacity load k ls a ++
          loadsAt capacity load (runAt capacity load k ls a).1
            (runAt capacity load k ls a).2 b := by
  induction a with
  | nil => intro k ls; rfl
  | cons key rest ih =>
      intro k ls
      show _ ++ loadsAt capacity load _ _ (rest ++ b) = _
      rw [ih, ← List.append_assoc]
      rfl

/-- Filling the cache: distinct keys that are not cached and fit under the
capacity are all misses without eviction, so they pile up at the front. -/
theorem runAt_fill {L : Type} (capacity : Nat) (load : L → String → Outcome × L)
    (keys : List String) :
    ∀ (k : KeyStoreCache) (ls : L), Inv capacity k → keys.Nodup →
      (∀ key ∈ keys, key ∉ GoList.keys k.pages) →
      k.pages.length + keys.length ≤ capacity →
      (∀ o ∈ outcomesAt capacity load k ls keys, o.isReturned = true) →
      GoList.keys (runAt capacity load k ls keys).1.pages =
        keys.reverse ++ GoList.keys k.pages := by
  induction keys with
  | nil => intro k ls _ _ _ _ _; simp [runAt]
  | cons key rest ih =>
      intro k ls hinv hnd hdisj hlen hret
      have hnot : key ∉ GoList.keys k.pages := hdisj key (by simp)
      have hr : (KeyStoreCache.GetAt capacity load k ls key).out.isReturned = true :=
        hret _ (by simp [outcomesAt])
      have hstep := hinv.GetAt_miss_keys load ls key hnot hr
      simp only [List.length_cons] at hlen
      rw [hinv.evict_keys_of_lt (by omega)] at hstep
      have hlen1 : (KeyStoreCache.GetAt capacity load k ls key).k.pages.length =
          k.pages.length + 1 := by
        have := congrArg List.length hstep
        simpa [GoList.keys] using this
      have hnd2 := List.nodup_cons.mp hnd
      simp only [runAt]
      rw [ih _ _ (hinv.GetAt load ls key) hnd2.2 ?_ (by omega) ?_, hstep]
      · simp
      · intro x hx
        rw [hstep]
        simp only [List.mem_cons, not_or]
        refine ⟨?_, hdisj x (by simp [hx])⟩
        intro hxk
        exact hnd2.1 (hxk ▸ hx)
      · intro o ho
        exact hret o (by simp [outcomesAt, ho])

theorem Inv.lookup_isSome_iff {capacity : Nat} {k : KeyStoreCache} (h : Inv capacity k)
    (key : String) :
    (KeyStoreCache.lookup k key).isSome = true ↔ key ∈ GoList.keys k.pages := by
  constructor
  · intro hs
    by_contra hnot
    have : KeyStoreCache.lookup k key = none := (h.get_none_iff key).mpr hnot
    rw [this] at hs
    simp at hs
  · intro hin
    obtain ⟨e, he, hk⟩ := List.mem_map.mp hin
    have : KeyStoreCache.lookup k key = some e := (h.get_iff key e).mpr ⟨he, hk⟩
    rw [this]
    rfl

theorem Inv.lookup_none_iff {capacity : Nat} {k : KeyStoreCache} (h : Inv capacity k)
    (key : String) :
    KeyStoreCache.lookup k key = none ↔ key ∉ GoList.keys k.pages :=
  h.get_none_iff key

/-- A full cache and one more new key: the first key of the fill is the one
that goes. -/
theorem runAt_overflow {L : Type} (capacity : Nat) (load : L → String → Outcome × L) (ls : L)
    (k1 : String) (mid : List String) (last : String)
    (hlen : mid.length + 1 = capacity)
    (hnd : (k1 :: (mid ++ [last])).Nodup)
    (hret : ∀ o ∈ outcomesAt capacity load New ls (k1 :: (mid ++ [last])),
      o.isReturned = true) :
    GoList.keys (runAt capacity load New ls (k1 :: mid)).1.pages = mid.reverse ++ [k1] ∧
      GoList.keys (runAt capacity load New ls (k1 :: (mid ++ [last]))).1.pages =
        last :: mid.reverse := by
  have happ : k1 :: (mid ++ [last]) = (k1 :: mid) ++ [last] := rfl
  rw [happ] at hret hnd ⊢
  rw [outcomesAt_append] at hret
  have hnd1 : (k1 :: mid).Nodup := (List.nodup_append.mp hnd).1
  have hlast : last ∉ k1 :: mid := by
    intro hin
    exact (List.nodup_append.mp hnd).2.2 hin (by simp)
  have hfill : GoList.keys (runAt capacity load New ls (k1 :: mid)).1.pages =
      (k1 :: mid).reverse ++ GoList.keys New.pages :=
    runAt_fill capacity load (k1 :: mid) New ls (Inv.New capacity) hnd1
      (by simp [KeyStore.New, GoList.keys])
      (by simp only [KeyStore.New, List.length_nil, List.length_cons]; omega)
      (fun o ho => hret o (List.mem_append_left _ ho))
  have hfill2 : GoList.keys (runAt capacity load New ls (k1 :: mid)).1.pages =
      mid.reverse ++ [k1] := by
    rw [hfill]
    simp [KeyStore.New, GoList.keys]
  refine ⟨hfill2, ?_⟩
  have hinv : Inv capacity (runAt capacity load New ls (k1 :: mid)).1 :=
    Inv.runAt load (k1 :: mid) New ls (Inv.New capacity)
  have hfull : capacity ≤ (runAt capacity load New ls (k1 :: mid)).1.pages.length := by
    have := congrArg List.length hfill2
    simp only [GoList.keys, List.length_map, List.length_append, List.length_reverse,
      List.length_cons, List.length_nil] at this
    omega
  have hnot : last ∉ GoList.keys (runAt capacity load New ls (k1 :: mid)).1.pages := by
    rw [hfill2]
    intro hin
    apply hlast
    simp only [List.mem_append, List.mem_reverse, List.mem_singleton] at hin
    rcases hin with hin | hin
    · exact List.mem_cons_of_mem _ hin
    · rw [hin]; exact List.mem_cons_self _ _
  rw [runAt_append, runAt_singleton]
  rw [hinv.GetAt_miss_keys load _ last hnot
    (hret _ (List.mem_append_right _ (by simp [outcomesAt_singleton]))),
    hinv.evict_keys_of_full hfull, hfill2, List.dropLast_concat]

/-- A full cache, a second access to the first key and then a new key: the
second key of the fill is the one that goes. -/
theorem runAt_promote_overflow {L : Type} (capacity : Nat) (load : L → String → Outcome × L)
    (ls : L) (k1 k2 : String) (rest : List String) (knew : String)
    (hlen : rest.length + 2 = capacity)
    (hnd : (k1 :: k2 :: (rest ++ [knew])).Nodup)
    (hret : ∀ o ∈ outcomesAt capacity load New ls (k1 :: k2 :: rest ++ [k1, knew]),
      o.isReturned = true) :
    GoList.keys (runAt capacity load New ls (k1 :: k2 :: rest ++ [k1])).1.pages =
        k1 :: (rest.reverse ++ [k2]) ∧
      GoList.keys (runAt capacity load New ls (k1 :: k2 :: rest ++ [k1, knew])).1.pages =
        knew :: k1 :: rest.reverse := by
  have hsplit : k1 :: k2 :: rest ++ [k1, knew] = (k1 :: k2 :: rest) ++ ([k1] ++ [knew]) := rfl
  have hsplit2 : k1 :: k2 :: rest ++ [k1, knew] = (k1 :: k2 :: rest ++ [k1]) ++ [knew] := by
    simp
  have hretB := hret
  rw [hsplit2, outcomesAt_append, outcomesAt_singleton] at hretB
  rw [hsplit, outcomesAt_append] at hret
  have hnd1 := List.nodup_cons.mp hnd
  have hnd2 := List.nodup_cons.mp hnd1.2
  have hnd3 := List.nodup_append.mp hnd2.2
  have h12 : k1 ≠ k2 := fun h => hnd1.1 (h ▸ List.mem_cons_self _ _)
  have h1r : k1 ∉ rest := fun h =>
    hnd1.1 (List.mem_cons_of_mem _ (List.mem_append_left _ h))
  have h1n : k1 ≠ knew := fun h =>
    hnd1.1 (List.mem_cons_of_mem _ (List.mem_append_right _ (by simp [h])))
  have h2n : k2 ≠ knew := fun h => hnd2.1 (List.mem_append_right _ (by simp [h]))
  have hnr : knew ∉ rest := fun h => hnd3.2.2 h (by simp)
  have hndk : (k1 :: k2 :: rest).Nodup := by
    refine List.nodup_cons.mpr ⟨?_, List.nodup_cons.mpr ⟨?_, hnd3.1⟩⟩
    · simp only [List.mem_cons, not_or]
      exact ⟨h12, h1r⟩
    · exact fun h => hnd2.1 (List.mem_append_left _ h)
  -- the fill
  have hfill : GoList.keys (runAt capacity load New ls (k1 :: k2 :: rest)).1.pages =
      rest.reverse ++ [k2, k1] := by
    rw [runAt_fill capacity load (k1 :: k2 :: rest) New ls (Inv.New capacity) hndk
      (by simp [KeyStore.New, GoList.keys])
      (by simp only [KeyStore.New, List.length_nil, List.length_cons]; omega)
      (fun o ho => hret o (List.mem_append_left _ ho))]
    simp [KeyStore.New, GoList.keys]
  have hinv0 : Inv capacity (runAt capacity load New ls (k1 :: k2 :: rest)).1 :=
    Inv.runAt load _ New ls (Inv.New capacity)
  -- the second access to the first key
  have hhit : GoList.keys (runAt capacity load New ls (k1 :: k2 :: rest ++ [k1])).1.pages =
      k1 :: (rest.reverse ++ [k2]) := by
    rw [runAt_append, runAt_singleton]
    simp only
    rw [hinv0.GetAt_hit_keys load _ k1 (by rw [hfill]; simp), hfill]
    congr 1
    rw [List.filter_append]
    have hf1 : rest.reverse.filter (fun x => decide (x ≠ k1)) = rest.reverse := by
      rw [List.filter_eq_self]
      intro a ha
      have : a ≠ k1 := fun h => h1r (h ▸ List.mem_reverse.mp ha)
      simpa using this
    rw [hf1]
    simp [h12.symm]
  refine ⟨hhit, ?_⟩
  have hinv1 : Inv capacity (runAt capacity load New ls (k1 :: k2 :: rest ++ [k1])).1 :=
    Inv.runAt load _ New ls (Inv.New capacity)
  have hfull : capacity ≤ (runAt capacity load New ls (k1 :: k2 :: rest ++ [k1])).1.pages.length := by
    have := congrArg List.length hhit
    simp only [GoList.keys, List.length_map, List.length_append, List.length_reverse,
      List.length_cons, List.length_nil] at this
    omega
  have hnot : knew ∉ GoList.keys (runAt capacity load New ls (k1 :: k2 :: rest ++ [k1])).1.pages := by
    rw [hhit]
    simp only [List.mem_cons, List.mem_append, List.mem_reverse, List.mem_singleton,
      List.not_mem_nil, or_false, not_or]
    exact ⟨h1n.symm, hnr, h2n.symm⟩
  have hlastret : (KeyStoreCache.GetAt capacity load
      (runAt capacity load New ls (k1 :: k2 :: rest ++ [k1])).1
      (runAt capacity load New ls (k1 :: k2 :: rest ++ [k1])).2 knew).out.isReturned = true :=
    hretB _ (List.mem_append_right _ (by simp))
  rw [hsplit2, runAt_append, runAt_singleton]
  simp only
  rw [hinv1.GetAt_miss_keys load _ knew hnot hlastret, hinv1.evict_keys_of_full hfull, hhit]
  have : k1 :: (rest.reverse ++ [k2]) = (k1 :: rest.reverse) ++ [k2] := rfl
  rw [this, List.dropLast_concat]

/-! ### Repeated hits -/

theorem KeyStoreCache.lookup_promote (k : KeyStoreCache) (e : Element) (key : String) :
    KeyStoreCache.lookup (KeyStoreCache.promote k e) key = KeyStoreCache.lookup k key := rfl

theorem runAt_replicate_hit {L : Type} (capacity : Nat) (load : L → String → Outcome × L)
    (ls : L) (key : String) (e : Element) (n : Nat) :
    ∀ k : KeyStoreCache, KeyStoreCache.lookup k key = some e →
      loadsAt capacity load k ls (List.replicate n key) = [] ∧
      outcomesAt capacity load k ls (List.replicate n key) =
        List.replicate n (Outcome.returned e.Value.Value) ∧
      (runAt capacity load k ls (List.replicate n key)).2 = ls ∧
      (runAt capacity load k ls (List.replicate n key)).1.cache = k.cache := by
  induction n with
  | zero => intro k _; simp [loadsAt, outcomesAt, runAt]
  | succ n ih =>
      intro k hk
      have hstep := KeyStoreCache.GetAt_hit capacity load k ls key e hk
      have hk2 : KeyStoreCache.lookup (KeyStoreCache.promote k e) key = some e := by
        rw [KeyStoreCache.lookup_promote]; exact hk
      obtain ⟨h1, h2, h3, h4⟩ := ih (KeyStoreCache.promote k e) hk2
      simp only [List.replicate_succ, loadsAt, outcomesAt, runAt, hstep]
      refine ⟨by rw [h1]; rfl, by rw [h2], h3, by rw [h4]; rfl⟩

theorem KeyStoreCache.GetAt_loads_of_miss {L : Type} (capacity : Nat)
    (load : L → String → Outcome × L) (k : KeyStoreCache) (ls : L) (key : String)
    (h : KeyStoreCache.lookup k key = none) :
    (KeyStoreCache.GetAt capacity load k ls key).loads = [key] ∧
      (KeyStoreCache.GetAt capacity load k ls key).ls = (load ls key).2 := by
  rcases hl : load ls key with ⟨o, ls1⟩
  cases o with
  | panicked err =>
      rw [KeyStoreCache.GetAt_panic capacity load k ls key err ls1 h hl]
      exact ⟨rfl, rfl⟩
  | returned val =>
      rw [KeyStoreCache.GetAt_miss capacity load k ls key val ls1 h hl]
      exact ⟨rfl, rfl⟩

theorem KeyStoreCache.GetAt_panicked_iff {L : Type} (capacity : Nat)
    (load : L → String → Outcome × L) (k : KeyStoreCache) (ls : L) (key err : String) :
    (KeyStoreCache.GetAt capacity load k ls key).out = Outcome.panicked err ↔
      KeyStoreCache.lookup k key = none ∧ (load ls key).1 = Outcome.panicked err := by
  cases hlook : KeyStoreCache.lookup k key with
  | some e =>
      rw [KeyStoreCache.GetAt_hit capacity load k ls key e hlook]
      simp
  | none =>
      rcases hl : load ls key with ⟨o, ls1⟩
      cases o with
      | panicked err2 =>
          rw [KeyStoreCache.GetAt_panic capacity load k ls key err2 ls1 hlook hl]
          simp
      | returned val =>
          rw [KeyStoreCache.GetAt_miss capacity load k ls key val ls1 hlook hl]
          simp

theorem KeyStoreCache.GetAt_k_of_panicked {L : Type} (capacity : Nat)
    (load : L → String → Outcome × L) (k : KeyStoreCache) (ls : L) (key err : String)
    (h : (KeyStoreCache.GetAt capacity load k ls key).out = Outcome.panicked err) :
    (KeyStoreCache.GetAt capacity load k ls key).k = k := by
  obtain ⟨hlook, hl⟩ := (KeyStoreCache.GetAt_panicked_iff capacity load k ls key err).mp h
  rcases hl2 : load ls key with ⟨o, ls1⟩
  rw [hl2] at hl
  simp only at hl
  subst hl
  rw [KeyStoreCache.GetAt_panic capacity load k ls key err ls1 hlook hl2]

theorem Loader.Load_panicked_iff {D : Type} (get : D → String → (String × Option String) × D)
    (d : D) (key err : String) :
    (Loader.Load get d key).1 = Outcome.panicked err ↔ (get d key).1.2 = some err := by
  unfold Loader.Load
  rcases hg : get d key with ⟨⟨val, oerr⟩, d1⟩
  cases oerr with
  | none => simp
  | some e => simp

/-! ## Sequential runs from `New` -/

/-- C1, capacity invariant: after every call of a sequential run of `Get` from
`New`, with any loader (any loader state type, any transition, panics
included) and any keys, the number of keys in the map `cache` is the length of
the list `pages`, the map binds no key twice, and both sizes are at most
`CacheSize`, which is 100.  (The run over every prefix of the keys is the run
over some key list, so the statement covers the state after each call.) -/
theorem capacity_invariant {L : Type} (load : L → String → Outcome × L) (ls : L)
    (keys : List String) :
    (GoMap.keys (run load New ls keys).1.cache).Nodup ∧
      GoMap.len (run load New ls keys).1.cache = (run load New ls keys).1.pages.length ∧
      (run load New ls keys).1.pages.length ≤ CacheSize ∧
      GoMap.len (run load New ls keys).1.cache ≤ CacheSize ∧
      CacheSize = 100 := by
  have h : Inv CacheSize (run load New ls keys).1 :=
    Inv.runAt load keys New ls (Inv.New CacheSize)
  have hle : (run load New ls keys).1.pages.length ≤ CacheSize := by
    have := h.len_le
    simpa [CacheSize] using this
  refine ⟨h.cache_keys_nodup, h.len_eq, hle, ?_, rfl⟩
  rw [h.len_eq]
  exact hle

/-- C2, index/ledger bijection: in every state that sequential calls of `Get`
reach from `New`, a key is bound in the map `cache` exactly when some entry of
the list `pages` has that key; the handle stored under a key is an element of
the list whose `Key` field is that key (and it is what the map stores for the
key of every list entry); and no two list entries carry the same key, nor
are two of them the same cell. -/
theorem index_ledger_bijection {L : Type} (load : L → String → Outcome × L) (ls : L)
    (keys : List String) :
    (∀ key : String, (KeyStoreCache.lookup (run load New ls keys).1 key).isSome = true ↔
        ∃ e ∈ (run load New ls keys).1.pages, e.Value.Key = key) ∧
      (∀ (key : String) (e : Element),
        KeyStoreCache.lookup (run load New ls keys).1 key = some e →
          e ∈ (run load New ls keys).1.pages ∧ e.Value.Key = key) ∧
      (∀ e ∈ (run load New ls keys).1.pages,
        KeyStoreCache.lookup (run load New ls keys).1 e.Value.Key = some e) ∧
      (GoList.keys (run load New ls keys).1.pages).Nodup ∧
      (GoList.addrs (run load New ls keys).1.pages).Nodup := by
  have h : Inv CacheSize (run load New ls keys).1 :=
    Inv.runAt load keys New ls (Inv.New CacheSize)
  refine ⟨?_, ?_, ?_, h.keys_nodup, h.addrs_nodup⟩
  · intro key
    constructor
    · intro hs
      obtain ⟨e, he⟩ := Option.isSome_iff_exists.mp hs
      exact ⟨e, (h.get_iff key e).mp he⟩
    · rintro ⟨e, he, hk⟩
      have : KeyStoreCache.lookup (run load New ls keys).1 key = some e :=
        (h.get_iff key e).mpr ⟨he, hk⟩
      rw [this]
      rfl
  · intro key e he
    exact (h.get_iff key e).mp he
  · intro e he
    exact (h.get_iff e.Value.Key e).mpr ⟨he, rfl⟩

/-- C3, LRU correctness: for any `CacheSize + 1` pairwise distinct keys, calling
`Get` once on each in order on a fresh cache (every call returning, that is,
the loader not panicking) leaves the first key absent from the cache and all
the others present; before the last call all the keys but the last are
present. -/
theorem lru_evicts_first {L : Type} (load : L → String → Outcome × L) (ls : L)
    (keys : List String) (hlen : keys.length = CacheSize + 1) (hnd : keys.Nodup)
    (hret : ∀ o ∈ outcomes load New ls keys, o.isReturned = true) :
    (∀ k1 ∈ keys.head?, KeyStoreCache.lookup (run load New ls keys).1 k1 = none) ∧
      (∀ key ∈ keys.tail, (KeyStoreCache.lookup (run load New ls keys).1 key).isSome = true) ∧
      (∀ key ∈ keys.dropLast,
        (KeyStoreCache.lookup (run load New ls keys.dropLast).1 key).isSome = true) := by
  obtain ⟨k1, tl, rfl⟩ : ∃ k1 tl, keys = k1 :: tl := by
    cases keys with
    | nil => simp [CacheSize] at hlen
    | cons a b => exact ⟨a, b, rfl⟩
  obtain ⟨mid, last, rfl⟩ : ∃ mid last, tl = mid ++ [last] := by
    have hne : tl ≠ [] := by
      intro h
      rw [h] at hlen
      simp [CacheSize] at hlen
    exact ⟨tl.dropLast, tl.getLast hne, (List.dropLast_append_getLast hne).symm⟩
  have hlen2 : mid.length + 1 = CacheSize := by
    simp only [List.length_cons, List.length_append, List.length_nil] at hlen
    omega
  obtain ⟨hbefore, hafter⟩ := runAt_overflow CacheSize load ls k1 mid last hlen2 hnd hret
  have hinvA : Inv CacheSize (run load New ls (k1 :: (mid ++ [last]))).1 :=
    Inv.runAt load _ New ls (Inv.New CacheSize)
  have hinvB : Inv CacheSize (run load New ls (k1 :: mid)).1 :=
    Inv.runAt load _ New ls (Inv.New CacheSize)
  have hdrop : (k1 :: (mid ++ [last])).dropLast = k1 :: mid := by
    have : k1 :: (mid ++ [last]) = (k1 :: mid) ++ [last] := rfl
    rw [this, List.dropLast_concat]
  have hnd2 := List.nodup_cons.mp hnd
  refine ⟨?_, ?_, ?_⟩
  · intro x hx
    simp only [List.head?_cons, Option.mem_def, Option.some.injEq] at hx
    subst hx
    rw [hinvA.lookup_none_iff]
    unfold run
    rw [hafter]
    intro hin
    apply hnd2.1
    simp only [List.mem_cons, List.mem_reverse] at hin
    simp only [List.mem_append, List.mem_singleton]
    rcases hin with hin | hin
    · exact Or.inr hin
    · exact Or.inl hin
  · intro key hkey
    rw [hinvA.lookup_isSome_iff]
    unfold run
    rw [hafter]
    simp only [List.tail_cons, List.mem_append, List.mem_singleton] at hkey
    simp only [List.mem_cons, List.mem_reverse]
    rcases hkey with hkey | hkey
    · exact Or.inr hkey
    · exact Or.inl hkey
  · intro key hkey
    rw [hdrop] at hkey ⊢
    rw [hinvB.lookup_isSome_iff]
    unfold run
    rw [hbefore]
    simp only [List.mem_cons] at hkey
    simp only [List.mem_append, List.mem_reverse, List.mem_singleton]
    rcases hkey with hkey | hkey
    · exact Or.inr hkey
    · exact Or.inl hkey

set_option maxRecDepth 100000 in
/-- Witness of C3: the 101 keys of lengths 0 to 100 with the loader `echo`. -/
theorem lru_evicts_first_witness :
    (sampleKeys 101).length = CacheSize + 1 ∧ (sampleKeys 101).Nodup ∧
      (∀ o ∈ outcomes echo New () (sampleKeys 101), o.isReturned = true) ∧
      ((∀ k1 ∈ (sampleKeys 101).head?,
          KeyStoreCache.lookup (run echo New () (sampleKeys 101)).1 k1 = none) ∧
        (∀ key ∈ (sampleKeys 101).tail,
          (KeyStoreCache.lookup (run echo New () (sampleKeys 101)).1 key).isSome = true) ∧
        (∀ key ∈ (sampleKeys 101).dropLast,
          (KeyStoreCache.lookup (run echo New () (sampleKeys 101).dropLast).1 key).isSome
            = true)) :=
  ⟨by decide, by decide, by decide,
    lru_evicts_first echo () (sampleKeys 101) (by decide) (by decide) (by decide)⟩

/-- C4, recency promotion, in two independent parts.  First: for every loader,
`CacheSize` pairwise distinct keys `k1, k2, ...` and a further new key `knew`,
after `Get` on each of them in order, `Get(k1)` again and then `Get(knew)` on
a fresh cache (every call returning), all of the first keys were cached before
the last call, the last call evicts `k2`, and `k1` and every other key stay
cached.  Second, with no condition on the loader or on how the state was
filled: in every reachable state, a `Get` on a key that the map binds to the
entry `e` leaves `e`, an entry of the list with that key, at the front of
`pages`. -/
theorem recency_promotion :
    (∀ (L : Type) (load : L → String → Outcome × L) (ls : L)
        (k1 k2 : String) (rest : List String) (knew : String),
        (k1 :: k2 :: rest).length = CacheSize →
        (k1 :: k2 :: (rest ++ [knew])).Nodup →
        (∀ o ∈ outcomes load New ls (k1 :: k2 :: rest ++ [k1, knew]), o.isReturned = true) →
        (∀ x ∈ k1 :: k2 :: rest,
          (KeyStoreCache.lookup (run load New ls (k1 :: k2 :: rest ++ [k1])).1 x).isSome
            = true) ∧
        KeyStoreCache.lookup (run load New ls (k1 :: k2 :: rest ++ [k1, knew])).1 k2 = none ∧
        (∀ x ∈ k1 :: (rest ++ [knew]),
          (KeyStoreCache.lookup (run load New ls (k1 :: k2 :: rest ++ [k1, knew])).1 x).isSome
            = true)) ∧
      (∀ (L : Type) (load : L → String → Outcome × L) (k : KeyStoreCache) (ls : L)
        (key : String) (e : Element),
        Reachable k → KeyStoreCache.lookup k key = some e →
        GoList.Front (KeyStoreCache.Get load k ls key).k.pages = some e ∧
        e ∈ k.pages ∧ e.Value.Key = key) := by
  constructor
  · intro L load ls k1 k2 rest knew hlen hnd hret
    have hlen2 : rest.length + 2 = CacheSize := by
      simpa using hlen
    obtain ⟨hbefore, hafter⟩ :=
      runAt_promote_overflow CacheSize load ls k1 k2 rest knew hlen2 hnd hret
    have hinvA : Inv CacheSize (run load New ls (k1 :: k2 :: rest ++ [k1])).1 :=
      Inv.runAt load _ New ls (Inv.New CacheSize)
    have hinvB : Inv CacheSize (run load New ls (k1 :: k2 :: rest ++ [k1, knew])).1 :=
      Inv.runAt load _ New ls (Inv.New CacheSize)
    have hnd1 := List.nodup_cons.mp hnd
    have hnd2 := List.nodup_cons.mp hnd1.2
    refine ⟨?_, ?_, ?_⟩
    · intro x hx
      rw [hinvA.lookup_isSome_iff]
      unfold run
      rw [hbefore]
      simp only [List.mem_cons] at hx
      simp only [List.mem_cons, List.mem_append, List.mem_reverse, List.mem_singleton]
      tauto
    · rw [hinvB.lookup_none_iff]
      unfold run
      rw [hafter]
      simp only [List.mem_cons, List.mem_reverse, not_or]
      refine ⟨?_, ?_, ?_⟩
      · exact fun h => hnd2.1 (List.mem_append_right _ (by simp [h]))
      · exact fun h => hnd1.1 (h ▸ List.mem_cons_self _ _)
      · exact fun h => hnd2.1 (List.mem_append_left _ h)
    · intro x hx
      rw [hinvB.lookup_isSome_iff]
      unfold run
      rw [hafter]
      simp only [List.mem_cons, List.mem_append, List.mem_singleton] at hx
      simp only [List.mem_cons, List.mem_reverse]
      tauto
  · intro L load k ls key e hk hhit
    have hmem := (hk.inv.get_iff key e).mp hhit
    refine ⟨?_, hmem.1, hmem.2⟩
    unfold KeyStoreCache.Get
    rw [hk.inv.GetAt_hit_eq load ls key e hhit]
    rfl

set_option maxRecDepth 100000 in
/-- Witness of C4.  First part: the keys of lengths 0 to 99 and the new key
`"new"`, with the loader `echo`.  Second part: `Get("a")` on the cache that
holds `"b"` at the front and `"a"` at the back, with the database down (no
load can succeed): the front of the list changes from the entry of `"b"` to
the entry of `"a"`. -/
theorem recency_promotion_witness :
    (keyOfLength 0 :: keyOfLength 1 :: (sampleKeys 100).drop 2).length = CacheSize ∧
      (keyOfLength 0 :: keyOfLength 1 :: ((sampleKeys 100).drop 2 ++ ["new"])).Nodup ∧
      (∀ o ∈ outcomes echo New ()
          (keyOfLength 0 :: keyOfLength 1 :: (sampleKeys 100).drop 2 ++ [keyOfLength 0, "new"]),
        o.isReturned = true) ∧
      KeyStoreCache.lookup
        (run echo New ()
          (keyOfLength 0 :: keyOfLength 1 :: (sampleKeys 100).drop 2 ++
            [keyOfLength 0, "new"])).1 (keyOfLength 1) = none ∧
      Reachable cacheWithAB ∧
      KeyStoreCache.lookup cacheWithAB "a" = some cellA ∧
      GoList.Front cacheWithAB.pages = some cellB ∧
      GoList.Front (KeyStoreCache.Get (Loader.Load downDB) cacheWithAB () "a").k.pages =
        some cellA :=
  have h : (keyOfLength 0 :: keyOfLength 1 :: (sampleKeys 100).drop 2).length = CacheSize ∧
      (keyOfLength 0 :: keyOfLength 1 :: ((sampleKeys 100).drop 2 ++ ["new"])).Nodup ∧
      (∀ o ∈ outcomes echo New ()
          (keyOfLength 0 :: keyOfLength 1 :: (sampleKeys 100).drop 2 ++ [keyOfLength 0, "new"]),
        o.isReturned = true) := by decide
  ⟨h.1, h.2.1, h.2.2,
    (recency_promotion.1 Unit echo () (keyOfLength 0) (keyOfLength 1) ((sampleKeys 100).drop 2)
      "new" h.1 h.2.1 h.2.2).2.1,
    ⟨Unit, echo, (), ["a", "b"], rfl⟩, by decide, by decide,
    (recency_promotion.2 Unit (Loader.Load downDB) cacheWithAB () "a" cellA
      ⟨Unit, echo, (), ["a", "b"], rfl⟩ (by decide)).1⟩

/-- C5, idempotent hit path: in every cache state (reachable or not) and for
every key that the map binds, any number `n` of consecutive calls of `Get` on
that key pass nothing to the loader and leave the loader state alone, each
returns the value stored for the key, and the key stays bound to the same
entry.  A `Get` on a key that the map does not bind calls the loader exactly
once, with that key. -/
theorem idempotent_hit_path {L : Type} (load : L → String → Outcome × L)
    (k : KeyStoreCache) (ls : L) (key : String) (e : Element) (n : Nat)
    (hhit : KeyStoreCache.lookup k key = some e)
    (k0 : KeyStoreCache) (ls0 : L) (key0 : String)
    (hmiss : KeyStoreCache.lookup k0 key0 = none) :
    loads load k ls (List.replicate n key) = [] ∧
      (run load k ls (List.replicate n key)).2 = ls ∧
      outcomes load k ls (List.replicate n key) =
        List.replicate n (Outcome.returned e.Value.Value) ∧
      KeyStoreCache.lookup (run load k ls (List.replicate n key)).1 key = some e ∧
      (KeyStoreCache.Get load k0 ls0 key0).loads = [key0] ∧
      (KeyStoreCache.Get load k0 ls0 key0).ls = (load ls0 key0).2 := by
  obtain ⟨h1, h2, h3, h4⟩ := runAt_replicate_hit CacheSize load ls key e n k hhit
  refine ⟨h1, h3, h2, ?_, KeyStoreCache.GetAt_loads_of_miss CacheSize load k0 ls0 key0 hmiss⟩
  unfold KeyStoreCache.lookup run
  rw [h4]
  exact hhit

/-- Witness of C5: three calls of `Get("a")` on the cache that holds `"a"`, and
a `Get("a")` on the empty cache. -/
theorem idempotent_hit_path_witness :
    KeyStoreCache.lookup cacheWithA "a" =
        some { addr := 0, Value := { Key := "a", Value := "a" } } ∧
      KeyStoreCache.lookup New "a" = none ∧
      loads echo cacheWithA () (List.replicate 3 "a") = [] ∧
      (KeyStoreCache.Get echo New () "a").loads = ["a"] :=
  ⟨by decide, by decide,
    (idempotent_hit_path echo cacheWithA () "a"
      { addr := 0, Value := { Key := "a", Value := "a" } } 3 (by decide)
      New () "a" (by decide)).1,
    (idempotent_hit_path echo cacheWithA () "a"
      { addr := 0, Value := { Key := "a", Value := "a" } } 3 (by decide)
      New () "a" (by decide)).2.2.2.2.1⟩

/-- C6, failure atomicity: in every cache state, a `Get` that fails (the loader
panics, as `Loader.Load` does on a database error) leaves the map `cache` and
the list `pages` exactly as they were, so nothing is inserted, evicted or
reordered; the key was absent and is still absent, and the next `Get` on it
calls the loader again with that key, whatever state the loader is in. -/
theorem failure_atomicity {L : Type} (load : L → String → Outcome × L)
    (k : KeyStoreCache) (ls : L) (key err : String)
    (hfail : (KeyStoreCache.Get load k ls key).out = Outcome.panicked err) (ls2 : L) :
    (KeyStoreCache.Get load k ls key).k = k ∧
      (KeyStoreCache.Get load k ls key).k.cache = k.cache ∧
      (KeyStoreCache.Get load k ls key).k.pages = k.pages ∧
      KeyStoreCache.lookup k key = none ∧
      KeyStoreCache.lookup (KeyStoreCache.Get load k ls key).k key = none ∧
      (KeyStoreCache.Get load (KeyStoreCache.Get load k ls key).k ls2 key).loads = [key] := by
  have hk : (KeyStoreCache.Get load k ls key).k = k :=
    KeyStoreCache.GetAt_k_of_panicked CacheSize load k ls key err hfail
  have hlook : KeyStoreCache.lookup k key = none :=
    ((KeyStoreCache.GetAt_panicked_iff CacheSize load k ls key err).mp hfail).1
  refine ⟨hk, by rw [hk], by rw [hk], hlook, by rw [hk]; exact hlook, ?_⟩
  rw [hk]
  exact (KeyStoreCache.GetAt_loads_of_miss CacheSize load k ls2 key hlook).1

/-- Witness of C6: `Get("b")` on the cache that holds `"a"`, with the database
down. -/
theorem failure_atomicity_witness :
    (KeyStoreCache.Get (Loader.Load downDB) cacheWithA () "b").out =
        Outcome.panicked "db down" ∧
      (KeyStoreCache.Get (Loader.Load downDB) cacheWithA () "b").k = cacheWithA :=
  ⟨by decide,
    (failure_atomicity (Loader.Load downDB) cacheWithA () "b" "db down" (by decide) ()).1⟩

/-- Counterexample to C7 as stated: with the database down, `Get("a")` on a
fresh cache does not return; it panics with the error of `DB.Get`. -/
theorem load_error_panics :
    (downDB () "a").1.2 = some "db down" ∧
      (KeyStoreCache.Get (Loader.Load downDB) New () "a").out = Outcome.panicked "db down" ∧
      (KeyStoreCache.Get (Loader.Load downDB) New () "a").out.isReturned = false := by
  decide

/-- C7 as amended: `Get` has one result, a string, and no error result.  With
the loader `Loader.Load`, `Get` panics with an error exactly when the key is
absent from the map and `DB.Get` returns that error for it: a load error is
neither swallowed nor returned, it leaves `Get` as a panic, and `Get` panics
in no other case; every call that does not panic returns a string. -/
theorem load_error_panics_iff {D : Type} (get : D → String → (String × Option String) × D)
    (k : KeyStoreCache) (d : D) (key err : String) :
    ((KeyStoreCache.Get (Loader.Load get) k d key).out = Outcome.panicked err ↔
        KeyStoreCache.lookup k key = none ∧ (get d key).1.2 = some err) ∧
      ((KeyStoreCache.Get (Loader.Load get) k d key).out.isReturned = true ↔
        ¬ (KeyStoreCache.lookup k key = none ∧ ∃ e, (get d key).1.2 = some e)) := by
  have h1 : ∀ e, (KeyStoreCache.Get (Loader.Load get) k d key).out = Outcome.panicked e ↔
      KeyStoreCache.lookup k key = none ∧ (get d key).1.2 = some e := by
    intro e
    unfold KeyStoreCache.Get
    rw [KeyStoreCache.GetAt_panicked_iff, Loader.Load_panicked_iff]
  refine ⟨h1 err, ?_⟩
  constructor
  · intro hr hcon
    obtain ⟨hlook, e, he⟩ := hcon
    rw [(h1 e).mpr ⟨hlook, he⟩] at hr
    simp [Outcome.isReturned] at hr
  · intro hn
    cases ho : (KeyStoreCache.Get (Loader.Load get) k d key).out with
    | returned v => rfl
    | panicked e =>
        exfalso
        obtain ⟨hlook, he⟩ := (h1 e).mp ho
        exact hn ⟨hlook, e, he⟩

/-- C9, effect of a miss: in every reachable state, for every key that the map
does not bind and whose load returns `val`, `Get` returns `val` and, with
`new` the cell it allocates for the page `(key, val)`:
if the cache holds fewer than `CacheSize` entries, nothing is removed, the
new list is `new` followed by the old list, and the map only gains the
binding of `key`; if it holds `CacheSize` entries, the old list has a back
`last`, the new list is `new` followed by the old list without its last
entry (same order), and the map loses exactly the key of `last` and gains the
binding of `key`, its size staying `CacheSize`. -/
theorem miss_effect {L : Type} (load : L → String → Outcome × L)
    (k : KeyStoreCache) (ls : L) (key val : String) (ls1 : L)
    (hk : Reachable k) (hmiss : KeyStoreCache.lookup k key = none)
    (hl : load ls key = (Outcome.returned val, ls1)) :
    (KeyStoreCache.Get load k ls key).out = Outcome.returned val ∧
      (GoMap.len k.cache < CacheSize →
        (KeyStoreCache.Get load k ls key).k.pages =
            { addr := k.fresh, Value := { Key := key, Value := val } } :: k.pages ∧
          (∀ x : String, KeyStoreCache.lookup (KeyStoreCache.Get load k ls key).k x =
            if x = key then some { addr := k.fresh, Value := { Key := key, Value := val } }
            else KeyStoreCache.lookup k x) ∧
          GoMap.len (KeyStoreCache.Get load k ls key).k.cache = GoMap.len k.cache + 1) ∧
      (GoMap.len k.cache = CacheSize →
        ∃ last : Element, GoList.Back k.pages = some last ∧
          k.pages = k.pages.dropLast ++ [last] ∧
          (KeyStoreCache.Get load k ls key).k.pages =
            { addr := k.fresh, Value := { Key := key, Value := val } } :: k.pages.dropLast ∧
          (∀ x : String, KeyStoreCache.lookup (KeyStoreCache.Get load k ls key).k x =
            if x = key then some { addr := k.fresh, Value := { Key := key, Value := val } }
            else if x = last.Value.Key then none
            else KeyStoreCache.lookup k x) ∧
          GoMap.len (KeyStoreCache.Get load k ls key).k.cache = CacheSize) := by
  have hinv := hk.inv
  have heq : KeyStoreCache.Get load k ls key = _ := hinv.GetAt_miss_eq load ls key val ls1 hmiss hl
  rw [heq]
  refine ⟨rfl, ?_, ?_⟩
  · intro hlt
    rw [KeyStoreCache.evict_of_lt CacheSize k hlt]
    refine ⟨rfl, ?_, ?_⟩
    · intro x
      exact GoMap.get_cons _ _ _ _
    · simp [GoMap.len]
  · intro hfull
    have hne : k.pages ≠ [] := by
      intro hnil
      have := hinv.len_eq
      rw [hfull, hnil] at this
      simp [CacheSize] at this
    obtain ⟨last, hlast⟩ : ∃ last, GoList.Back k.pages = some last := by
      cases hb : GoList.Back k.pages with
      | none => exact absurd (by simpa [GoList.Back] using hb) hne
      | some last => exact ⟨last, rfl⟩
    refine ⟨last, hlast, (List.dropLast_append_getLast? last hlast).symm, ?_⟩
    rw [hinv.evict_of_full (by omega) last hlast]
    refine ⟨rfl, ?_, ?_⟩
    · intro x
      show GoMap.get (_ :: GoMap.delete k.cache last.Value.Key) x = _
      rw [GoMap.get_cons, GoMap.get_delete]
      rfl
    · have hlastmem : last ∈ k.pages := GoList.mem_of_Back _ _ hlast
      have hget : GoMap.get k.cache last.Value.Key = some last :=
        (hinv.get_iff _ _).mpr ⟨hlastmem, rfl⟩
      have hmem : (last.Value.Key, last) ∈ k.cache := GoMap.mem_of_get _ _ _ hget
      have hnd := hinv.cache_keys_nodup
      have hcount : (GoMap.delete k.cache last.Value.Key).length + 1 = k.cache.length := by
        have hperm := hinv.index_perm
        have h1 := List.Perm.length_eq
          (List.Perm.filter (fun kv : String × Element => decide (kv.1 ≠ last.Value.Key)) hperm)
        unfold GoMap.delete
        rw [h1]
        unfold GoList.index
        rw [List.filter_map, List.length_map]
        have h2 : List.filter ((fun kv : String × Element => decide (kv.1 ≠ last.Value.Key)) ∘
            fun e : Element => (e.Value.Key, e)) k.pages = GoList.Remove k.pages last := by
          rw [GoList.Remove_eq_filter_key k.pages hinv.addrs_nodup hinv.keys_nodup last hlastmem]
          rfl
        rw [h2, GoList.Remove_last k.pages hinv.addrs_nodup last hlast, List.length_dropLast]
        have h3 := List.Perm.length_eq hperm
        unfold GoList.index at h3
        rw [List.length_map] at h3
        have h4 : 0 < k.pages.length := List.length_pos_of_mem hlastmem
        omega
      simp only [GoMap.len, List.length_cons]
      rw [hcount]
      exact hfull

set_option maxRecDepth 100000 in
/-- Witness of C9: `Get("a")` on the empty cache and `Get("new")` on the full
cache, with the loader `echo`. -/
theorem miss_effect_witness :
    Reachable New ∧ KeyStoreCache.lookup New "a" = none ∧
      echo () "a" = (Outcome.returned "a", ()) ∧
      Reachable fullCache ∧ KeyStoreCache.lookup fullCache "new" = none ∧
      GoMap.len fullCache.cache = CacheSize ∧
      (KeyStoreCache.Get echo New () "a").out = Outcome.returned "a" ∧
      (KeyStoreCache.Get echo fullCache () "new").out = Outcome.returned "new" :=
  ⟨⟨Unit, echo, (), [], rfl⟩, by decide, rfl,
    ⟨Unit, echo, (), sampleKeys 100, rfl⟩, by decide, by decide,
    (miss_effect echo New () "a" "a" () ⟨Unit, echo, (), [], rfl⟩ (by decide) rfl).1,
    (miss_effect echo fullCache () "new" "new" () ⟨Unit, echo, (), sampleKeys 100, rfl⟩
      (by decide) rfl).1⟩

/-- C10, effect of a hit: in every reachable state, for every key that the map
binds to an entry `e`, `Get` returns the value stored in `e`, does not call
the loader, and changes nothing but the recency order: the map is unchanged
(same keys, same entry for every key), the list has the same length, `e` was
an entry of the list with that key, and the new list is `e` followed by all
the other entries in their previous relative order. -/
theorem hit_effect {L : Type} (load : L → String → Outcome × L)
    (k : KeyStoreCache) (ls : L) (key : String) (e : Element)
    (hk : Reachable k) (hhit : KeyStoreCache.lookup k key = some e) :
    (KeyStoreCache.Get load k ls key).out = Outcome.returned e.Value.Value ∧
      (KeyStoreCache.Get load k ls key).loads = [] ∧
      (KeyStoreCache.Get load k ls key).k.cache = k.cache ∧
      (∀ x : String, KeyStoreCache.lookup (KeyStoreCache.Get load k ls key).k x =
        KeyStoreCache.lookup k x) ∧
      (KeyStoreCache.Get load k ls key).k.pages.length = k.pages.length ∧
      e ∈ k.pages ∧ e.Value.Key = key ∧
      (KeyStoreCache.Get load k ls key).k.pages =
        e :: k.pages.filter (fun x => decide (x ≠ e)) ∧
      (∀ x : Element, x ∈ (KeyStoreCache.Get load k ls key).k.pages ↔ x ∈ k.pages) := by
  have hinv := hk.inv
  have hmem := (hinv.get_iff key e).mp hhit
  have heq : KeyStoreCache.Get load k ls key = _ := hinv.GetAt_hit_eq load ls key e hhit
  have hperm : (e :: k.pages.filter (fun x => decide (x ≠ e))).Perm k.pages :=
    GoList.cons_filter_ne_perm k.pages (GoList.nodup_of_addrs _ hinv.addrs_nodup) e hmem.1
  rw [heq]
  exact ⟨rfl, rfl, rfl, fun _ => rfl, List.Perm.length_eq hperm, hmem.1, hmem.2, rfl,
    fun x => List.Perm.mem_iff hperm⟩

/-- Witness of C10: `Get("a")` on the cache whose list is the entry of `"b"`
followed by the entry of `"a"`.  The call returns `"a"` without a load, the
map is the same, and the list becomes the entry of `"a"` followed by the entry
of `"b"`. -/
theorem hit_effect_witness :
    Reachable cacheWithAB ∧
      KeyStoreCache.lookup cacheWithAB "a" = some cellA ∧
      cacheWithAB.pages = [cellB, cellA] ∧
      (KeyStoreCache.Get echo cacheWithAB () "a").out = Outcome.returned "a" ∧
      (KeyStoreCache.Get echo cacheWithAB () "a").loads = [] ∧
      (KeyStoreCache.Get echo cacheWithAB () "a").k.cache = cacheWithAB.cache ∧
      (KeyStoreCache.Get echo cacheWithAB () "a").k.pages = [cellA, cellB] :=
  ⟨⟨Unit, echo, (), ["a", "b"], rfl⟩, by decide, by decide,
    (hit_effect echo cacheWithAB () "a" cellA ⟨Unit, echo, (), ["a", "b"], rfl⟩ (by decide)).1,
    (hit_effect echo cacheWithAB () "a" cellA
      ⟨Unit, echo, (), ["a", "b"], rfl⟩ (by decide)).2.1,
    (hit_effect echo cacheWithAB () "a" cellA
      ⟨Unit, echo, (), ["a", "b"], rfl⟩ (by decide)).2.2.1,
    (hit_effect echo cacheWithAB () "a" cellA
      ⟨Unit, echo, (), ["a", "b"], rfl⟩ (by decide)).2.2.2.2.2.2.2.1.trans (by decide)⟩

/-! ## Concurrent callers -/

/-- A goroutine that runs alone goes through its steps to the result of the
sequential `Get`: same cache, same loader state, same loader calls, same
outcome. -/
theorem exec_alone {L : Type} (capacity : Nat) (load : L → String → Outcome × L)
    (k : KeyStoreCache) (ls : L) (key : String) :
    ∃ sched : List Nat,
      (exec capacity load (spawn k ls [key]) sched).map
          (fun s => (s.k, s.ls, s.loads, s.procs)) =
        some ((KeyStoreCache.GetAt capacity load k ls key).k,
          (KeyStoreCache.GetAt capacity load k ls key).ls,
          (KeyStoreCache.GetAt capacity load k ls key).loads,
          [(key, Pc.ofOutcome (KeyStoreCache.GetAt capacity load k ls key).out)]) := by
  cases hlook : KeyStoreCache.lookup k key with
  | some e =>
      refine ⟨[0, 0], ?_⟩
      rw [KeyStoreCache.GetAt_hit capacity load k ls key e hlook]
      simp [exec, step, spawn, hlook, Pc.ofOutcome]
  | none =>
      rcases hl : load ls key with ⟨o, ls1⟩
      cases o with
      | panicked err =>
          refine ⟨[0, 0, 0, 0], ?_⟩
          rw [KeyStoreCache.GetAt_panic capacity load k ls key err ls1 hlook hl]
          simp [exec, step, spawn, hlook, hl, Pc.ofOutcome, Group.enter, Group.empty]
      | returned val =>
          refine ⟨[0, 0, 0, 0, 0], ?_⟩
          rw [KeyStoreCache.GetAt_miss capacity load k ls key val ls1 hlook hl]
          simp [exec, step, spawn, hlook, hl, Pc.ofOutcome, Group.enter, Group.empty]

/-- C8 fails on the code: two concurrent calls of `Get("a")` on a fresh cache,
scheduled as `lateEntry`, both complete and return `"a"`, but the loader is
called twice with `"a"`: the second goroutine missed in the lookup before the
first one inserted, and entered `Do` after the call of the first one had been
removed from the group. -/
theorem concurrent_get_loads_twice :
    (exec CacheSize counting (spawn New 0 ["a", "a"]) lateEntry).map
        (fun s => (s.procs, s.loads, s.ls, GoList.keys s.k.pages)) =
      some ([("a", Pc.done "a"), ("a", Pc.done "a")], ["a", "a"], 2, ["a"]) := by
  decide

/-! ### The invariant under interleaving -/

theorem Inv.validHandle_of_mem {capacity : Nat} {k : KeyStoreCache} (h : Inv capacity k)
    (e : Element) (he : e ∈ k.pages) : ValidHandle k e :=
  ⟨h.addrs_lt e he, fun x hx ha => GoList.eq_of_addr_eq k.pages h.addrs_nodup x e hx he ha⟩

theorem ValidHandle.mem_of_owns {k : KeyStoreCache} {e : Element} (h : ValidHandle k e)
    (ho : GoList.owns k.pages e = true) : e ∈ k.pages := by
  unfold GoList.owns at ho
  rw [List.any_eq_true] at ho
  obtain ⟨x, hx, hxa⟩ := ho
  have hxe : x = e := h.2 x hx (by simpa using hxa)
  rw [← hxe]
  exact hx

theorem ValidHandle.owns_eq_false {k : KeyStoreCache} {e : Element} (h : ValidHandle k e)
    (he : e ∉ k.pages) : GoList.owns k.pages e = false := by
  cases ho : GoList.owns k.pages e with
  | false => rfl
  | true => exact absurd (h.mem_of_owns ho) he

/-- A later cache state keeps the handles valid when it has allocated no less
and each of its cells is an old cell or a newly allocated one. -/
theorem ValidHandle.mono {k k1 : KeyStoreCache} {e : Element} (h : ValidHandle k e)
    (hfresh : k.fresh ≤ k1.fresh)
    (hpages : ∀ x ∈ k1.pages, x ∈ k.pages ∨ k.fresh ≤ x.addr) : ValidHandle k1 e := by
  refine ⟨Nat.lt_of_lt_of_le h.1 hfresh, ?_⟩
  intro x hx ha
  rcases hpages x hx with hold | hnew
  · exact h.2 x hold ha
  · have := h.1
    omega

theorem KeyStoreCache.promote_of_not_owns (k : KeyStoreCache) (e : Element)
    (ho : GoList.owns k.pages e = false) : KeyStoreCache.promote k e = k := by
  unfold KeyStoreCache.promote GoList.MoveToFront
  rw [ho]
  rfl

theorem Inv.promote_valid {capacity : Nat} {k : KeyStoreCache} (h : Inv capacity k)
    (e : Element) (hv : ValidHandle k e) : Inv capacity (KeyStoreCache.promote k e) := by
  cases ho : GoList.owns k.pages e with
  | false => rw [KeyStoreCache.promote_of_not_owns k e ho]; exact h
  | true => exact h.promote e (hv.mem_of_owns ho)

theorem KeyStoreCache.promote_fresh (k : KeyStoreCache) (e : Element) :
    (KeyStoreCache.promote k e).fresh = k.fresh := rfl

theorem KeyStoreCache.mem_promote (k : KeyStoreCache) (e : Element) (hv : ValidHandle k e)
    (x : Element) (hx : x ∈ (KeyStoreCache.promote k e).pages) : x ∈ k.pages := by
  cases ho : GoList.owns k.pages e with
  | false => rw [KeyStoreCache.promote_of_not_owns k e ho] at hx; exact hx
  | true =>
      have he := hv.mem_of_owns ho
      unfold KeyStoreCache.promote GoList.MoveToFront at hx
      rw [ho] at hx
      simp only [if_true, List.mem_cons] at hx
      rcases hx with rfl | hx
      · exact he
      · unfold GoList.Remove at hx
        exact (List.mem_filter.mp hx).1

theorem Inv.update_hit_eq {capacity : Nat} {k : KeyStoreCache}
    (key : String) (p : page) (e : Element) (hhit : GoMap.get k.cache key = some e) :
    KeyStoreCache.update capacity k key p = (e.Value.Value, KeyStoreCache.promote k e) := by
  unfold KeyStoreCache.update
  rw [hhit]
  rfl

/-- The update under the write lock keeps the cache consistent, whether the
double check finds the key or not. -/
theorem Inv.update {capacity : Nat} {k : KeyStoreCache} (h : Inv capacity k)
    (key val : String) :
    Inv capacity (KeyStoreCache.update capacity k key { Key := key, Value := val }).2 := by
  cases hlook : GoMap.get k.cache key with
  | some e =>
      rw [Inv.update_hit_eq key _ e hlook]
      exact h.promote e ((h.get_iff key e).mp hlook).1
  | none => exact h.update_miss key val hlook

theorem Inv.update_fresh_pages {capacity : Nat} {k : KeyStoreCache} (h : Inv capacity k)
    (key val : String) :
    k.fresh ≤ (KeyStoreCache.update capacity k key { Key := key, Value := val }).2.fresh ∧
      ∀ x ∈ (KeyStoreCache.update capacity k key { Key := key, Value := val }).2.pages,
        x ∈ k.pages ∨ k.fresh ≤ x.addr := by
  cases hlook : GoMap.get k.cache key with
  | some e =>
      rw [Inv.update_hit_eq key _ e hlook]
      have he := ((h.get_iff key e).mp hlook).1
      refine ⟨Nat.le_refl _, fun x hx => Or.inl ?_⟩
      exact KeyStoreCache.mem_promote k e (h.validHandle_of_mem e he) x hx
  | none =>
      rw [h.update_miss_eq key val hlook]
      refine ⟨Nat.le_succ _, ?_⟩
      intro x hx
      simp only [List.mem_cons] at hx
      rcases hx with rfl | hx
      · exact Or.inr (Nat.le_refl _)
      · exact Or.inl (h.evict.2.2.subset hx)

theorem SysInv.of_parts {L : Type} {capacity : Nat} {s s1 : System L} (h : SysInv capacity s)
    (i : Nat) (key : String) (pc1 : Pc)
    (hprocs : s1.procs = s.procs.set i (key, pc1))
    (hk : Inv capacity s1.k) (hfresh : s.k.fresh ≤ s1.k.fresh)
    (hpages : ∀ x ∈ s1.k.pages, x ∈ s.k.pages ∨ s.k.fresh ≤ x.addr)
    (hpc : ∀ (e : Element) (val : String), pc1 = Pc.promoting e val → ValidHandle s1.k e) :
    SysInv capacity s1 := by
  refine ⟨hk, ?_⟩
  intro p hp e val hpe
  rw [hprocs] at hp
  rcases List.mem_or_eq_of_mem_set hp with hold | hnew
  · exact (h.2 p hold e val hpe).mono hfresh hpages
  · rw [hnew] at hpe
    exact hpc e val hpe

theorem SysInv.spawn {L : Type} (capacity : Nat) (k : KeyStoreCache) (ls : L)
    (keys : List String) (h : Inv capacity k) : SysInv capacity (spawn k ls keys) := by
  refine ⟨h, ?_⟩
  intro p hp e val hpe
  simp only [KeyStore.spawn, List.mem_map] at hp
  obtain ⟨key, _, rfl⟩ := hp
  simp at hpe

/-- Every atomic step keeps the shared state consistent. -/
theorem SysInv.step {L : Type} {capacity : Nat} {load : L → String → Outcome × L}
    {s s1 : System L} {i : Nat} (h : SysInv capacity s)
    (hs : step capacity load s i = some s1) : SysInv capacity s1 := by
  have hsame : ∀ x ∈ s.k.pages, x ∈ s.k.pages ∨ s.k.fresh ≤ x.addr := fun x hx => Or.inl hx
  unfold KeyStore.step at hs
  split at hs
  · simp at hs
  · split at hs
    · rename_i key _ _ e hlook
      simp only [Option.some.injEq] at hs
      subst hs
      refine h.of_parts i key _ rfl h.1 (Nat.le_refl _) hsame ?_
      intro e1 val1 heq
      simp only [Pc.promoting.injEq] at heq
      rw [← heq.1]
      exact h.1.validHandle_of_mem e ((h.1.get_iff key e).mp hlook).1
    · simp only [Option.some.injEq] at hs
      subst hs
      exact h.of_parts i _ _ rfl h.1 (Nat.le_refl _) hsame (by simp)
  · rename_i key e val hget
    simp only [Option.some.injEq] at hs
    subst hs
    have hv : ValidHandle s.k e := h.2 (key, Pc.promoting e val) (List.get?_mem hget) e val rfl
    exact h.of_parts i key _ rfl (h.1.promote_valid e hv) (Nat.le_refl _)
      (fun x hx => Or.inl (KeyStoreCache.mem_promote s.k e hv x hx)) (by simp)
  · split at hs
    · simp only [Option.some.injEq] at hs
      subst hs
      exact h.of_parts i _ _ rfl h.1 (Nat.le_refl _) hsame (by simp)
    · simp only [Option.some.injEq] at hs
      subst hs
      exact h.of_parts i _ _ rfl h.1 (Nat.le_refl _) hsame (by simp)
  · simp only [Option.some.injEq] at hs
    subst hs
    exact h.of_parts i _ _ rfl h.1 (Nat.le_refl _) hsame (by simp)
  · simp only [Option.some.injEq] at hs
    subst hs
    exact h.of_parts i _ _ rfl h.1 (Nat.le_refl _) hsame (by simp)
  · simp only [Option.some.injEq] at hs
    subst hs
    exact h.of_parts i _ _ rfl h.1 (Nat.le_refl _) hsame (by simp)
  · split at hs
    · simp at hs
    · simp only [Option.some.injEq] at hs
      subst hs
      exact h.of_parts i _ _ rfl h.1 (Nat.le_refl _) hsame (by simp)
    · simp only [Option.some.injEq] at hs
      subst hs
      exact h.of_parts i _ _ rfl h.1 (Nat.le_refl _) hsame (by simp)
  · rename_i key val hget
    simp only [Option.some.injEq] at hs
    subst hs
    have hfp := h.1.update_fresh_pages key val
    exact h.of_parts i key _ rfl (h.1.update key val) hfp.1 hfp.2 (by simp)
  · simp at hs
  · simp at hs

theorem SysInv.exec {L : Type} {capacity : Nat} {load : L → String → Outcome × L}
    (sched : List Nat) :
    ∀ {s s1 : System L}, SysInv capacity s → exec capacity load s sched = some s1 →
      SysInv capacity s1 := by
  induction sched with
  | nil =>
      intro s s1 h hs
      simp only [KeyStore.exec, Option.some.injEq] at hs
      rw [← hs]
      exact h
  | cons i rest ih =>
      intro s s1 h hs
      simp only [KeyStore.exec] at hs
      cases hstep : KeyStore.step capacity load s i with
      | none => rw [hstep] at hs; simp at hs
      | some s2 =>
          rw [hstep] at hs
          exact ih (h.step hstep) hs

theorem get?_set_of_get? {α : Type} (l : List α) (i : Nat) (a b : α)
    (h : l.get? i = some a) : (l.set i b).get? i = some b := by
  rw [List.get?_eq_getElem?] at h ⊢
  have hlt : i < l.length := by
    by_contra hge
    rw [List.getElem?_eq_none (by omega)] at h
    simp at h
  exact List.getElem?_set_self hlt

/-- C11, invariant under interleaving: whatever the goroutines, their keys, the
loader and the schedule, every state that the atomic steps reach from `New`
satisfies the bijection between the map `cache` and the list `pages` (a key is
bound to `e` exactly when `e` is an entry of the list with that key; no key
and no cell occurs twice) and the capacity invariant (the map and the list
have the same size, at most `CacheSize`).  In particular, a goroutine that
promotes a handle whose entry has left the list since the lookup changes
neither the list nor the map and returns the value it read; and a goroutine
that comes back from the load and finds its key bound in the double check adds
no entry (the map is untouched and the list is only reordered) and returns the
value of the existing entry. -/
theorem interleaving_invariant {L : Type} (load : L → String → Outcome × L) (ls : L)
    (keys : List String) (sched : List Nat) (s : System L)
    (hs : exec CacheSize load (spawn New ls keys) sched = some s) :
    (∀ (key : String) (e : Element),
        KeyStoreCache.lookup s.k key = some e ↔ e ∈ s.k.pages ∧ e.Value.Key = key) ∧
      (GoList.keys s.k.pages).Nodup ∧ (GoList.addrs s.k.pages).Nodup ∧
      (GoMap.keys s.k.cache).Nodup ∧
      GoMap.len s.k.cache = s.k.pages.length ∧ s.k.pages.length ≤ CacheSize ∧
      (∀ (i : Nat) (key : String) (e : Element) (val : String),
        s.procs.get? i = some (key, Pc.promoting e val) → e ∉ s.k.pages →
          ∃ s1, step CacheSize load s i = some s1 ∧ s1.k = s.k ∧
            s1.procs.get? i = some (key, Pc.done val)) ∧
      (∀ (i : Nat) (key val : String) (e : Element),
        s.procs.get? i = some (key, Pc.updating val) →
          KeyStoreCache.lookup s.k key = some e →
          ∃ s1, step CacheSize load s i = some s1 ∧ s1.k.cache = s.k.cache ∧
            s1.k.pages.Perm s.k.pages ∧ s1.k.pages.length = s.k.pages.length ∧
            s1.procs.get? i = some (key, Pc.done e.Value.Value)) := by
  have hsys : SysInv CacheSize s :=
    SysInv.exec sched (SysInv.spawn CacheSize New ls keys (Inv.New CacheSize)) hs
  have hinv := hsys.1
  refine ⟨fun key e => hinv.get_iff key e, hinv.keys_nodup, hinv.addrs_nodup,
    hinv.cache_keys_nodup, hinv.len_eq, ?_, ?_, ?_⟩
  · have := hinv.len_le
    simpa [CacheSize] using this
  · intro i key e val hget hnot
    have hv : ValidHandle s.k e := hsys.2 _ (List.get?_mem hget) e val rfl
    have hpro : KeyStoreCache.promote s.k e = s.k :=
      KeyStoreCache.promote_of_not_owns s.k e (hv.owns_eq_false hnot)
    refine ⟨{ s with k := KeyStoreCache.promote s.k e,
                     procs := s.procs.set i (key, Pc.done val) }, ?_, hpro, ?_⟩
    · unfold KeyStore.step
      rw [hget]
    · exact get?_set_of_get? _ _ _ _ hget
  · intro i key val e hget hlook
    have hmem : e ∈ s.k.pages := ((hinv.get_iff key e).mp hlook).1
    have hupd : KeyStoreCache.update CacheSize s.k key { Key := key, Value := val } =
        (e.Value.Value, KeyStoreCache.promote s.k e) := Inv.update_hit_eq key _ e hlook
    refine ⟨{ s with
        k := (KeyStoreCache.update CacheSize s.k key { Key := key, Value := val }).2,
        procs := s.procs.set i
          (key, Pc.done (KeyStoreCache.update CacheSize s.k key { Key := key, Value := val }).1) },
      ?_, ?_, ?_, ?_, ?_⟩
    · unfold KeyStore.step
      rw [hget]
    · simp only [hupd]
      rfl
    · simp only [hupd]
      rw [hinv.promote_eq e hmem]
      exact GoList.cons_filter_ne_perm s.k.pages (GoList.nodup_of_addrs _ hinv.addrs_nodup) e hmem
    · simp only [hupd]
      rw [hinv.promote_eq e hmem]
      exact List.Perm.length_eq
        (GoList.cons_filter_ne_perm s.k.pages (GoList.nodup_of_addrs _ hinv.addrs_nodup) e hmem)
    · simp only [hupd]
      exact get?_set_of_get? _ _ _ _ hget

set_option maxRecDepth 1000000 in
/-- Witness of C11: the schedule `staleSchedule` of 102 goroutines reaches
`staleState`, where goroutine 100 holds the handle of an entry that goroutine
101 has evicted; its promotion leaves the cache as it is. -/
theorem interleaving_invariant_witness :
    exec CacheSize echo (spawn New () staleKeys) staleSchedule = some staleState ∧
      staleState.procs.get? 100 =
        some (keyOfLength 0, Pc.promoting firstCell (keyOfLength 0)) ∧
      firstCell ∉ staleState.k.pages ∧
      staleState.k.pages.length ≤ CacheSize ∧
      ∃ s1, step CacheSize echo staleState 100 = some s1 ∧ s1.k = staleState.k ∧
        s1.procs.get? 100 = some (keyOfLength 0, Pc.done (keyOfLength 0)) :=
  have h : exec CacheSize echo (spawn New () staleKeys) staleSchedule = some staleState ∧
      staleState.procs.get? 100 =
        some (keyOfLength 0, Pc.promoting firstCell (keyOfLength 0)) ∧
      firstCell ∉ staleState.k.pages := by decide
  ⟨h.1, h.2.1, h.2.2,
    (interleaving_invariant echo () staleKeys staleSchedule staleState h.1).2.2.2.2.2.1,
    (interleaving_invariant echo () staleKeys staleSchedule staleState h.1).2.2.2.2.2.2.1
      100 (keyOfLength 0) firstCell (keyOfLength 0) h.2.1 h.2.2⟩

theorem Event.disciplinedAt_load (es : List Event) (n : Nat) (key : String)
    (hget : es.get? n = some (Event.Load key)) (hd : Event.disciplinedAt es n = true) :
    Held.after (es.take n) = some { readers := 0, writers := 0 } := by
  unfold Event.disciplinedAt at hd
  rw [hget] at hd
  cases hh : Held.after (es.take n) with
  | none => rw [hh] at hd; simp at hd
  | some h =>
      rw [hh] at hd
      simp only [decide_eq_true_eq] at hd
      obtain ⟨r, w⟩ := h
      simp only at hd
      rw [hd.1, hd.2]

theorem Event.disciplinedAt_of_disciplined (es : List Event) (h : Event.disciplined es = true)
    (n : Nat) : Event.disciplinedAt es n = true := by
  by_cases hn : n < es.length
  · unfold Event.disciplined at h
    rw [List.all_eq_true] at h
    exact h n (List.mem_range.mpr hn)
  · unfold Event.disciplinedAt
    rw [List.get?_eq_none.mpr (by omega)]

theorem KeyStoreCache.GetEvents_ok {L : Type} (capacity : Nat)
    (load : L → String → Outcome × L) (k : KeyStoreCache) (ls : L) (key : String) :
    Held.after (KeyStoreCache.GetEvents capacity load k ls key) =
        some { readers := 0, writers := 0 } ∧
      Event.disciplined (KeyStoreCache.GetEvents capacity load k ls key) = true := by
  unfold KeyStoreCache.GetEvents KeyStoreCache.updateEvents
  cases KeyStoreCache.lookup k key with
  | some e => exact ⟨rfl, rfl⟩
  | none =>
      cases (load ls key).1 with
      | panicked err => exact ⟨rfl, rfl⟩
      | returned val =>
          cases GoMap.get k.cache key with
          | some e => exact ⟨rfl, rfl⟩
          | none =>
              by_cases hfull : GoMap.len k.cache ≥ capacity
              · cases GoList.Back k.pages with
                | some last =>
                    simp only [hfull, if_true]
                    exact ⟨rfl, rfl⟩
                | none =>
                    simp only [hfull, if_true]
                    exact ⟨rfl, rfl⟩
              · simp only [hfull, if_false]
                exact ⟨rfl, rfl⟩

theorem KeyStoreCache.GetEvents_loadKeys {L : Type} (capacity : Nat)
    (load : L → String → Outcome × L) (k : KeyStoreCache) (ls : L) (key : String) :
    Event.loadKeys (KeyStoreCache.GetEvents capacity load k ls key) =
      (KeyStoreCache.GetAt capacity load k ls key).loads := by
  cases hlook : KeyStoreCache.lookup k key with
  | some e =>
      rw [KeyStoreCache.GetAt_hit capacity load k ls key e hlook]
      simp [KeyStoreCache.GetEvents, hlook, Event.loadKeys]
  | none =>
      rw [(KeyStoreCache.GetAt_loads_of_miss capacity load k ls key hlook).1]
      unfold KeyStoreCache.GetEvents KeyStoreCache.updateEvents
      rw [hlook]
      cases (load ls key).1 with
      | panicked err => simp [Event.loadKeys]
      | returned val =>
          cases GoMap.get k.cache key with
          | some e => simp [Event.loadKeys]
          | none =>
              by_cases hfull : GoMap.len k.cache ≥ capacity
              · cases GoList.Back k.pages <;> simp [hfull, Event.loadKeys]
              · simp [hfull, Event.loadKeys]

theorem KeyStoreCache.updateEvents_ok (capacity : Nat) (k : KeyStoreCache) (key : String) :
    Held.after (KeyStoreCache.updateEvents capacity k key) =
        some { readers := 0, writers := 0 } ∧
      Event.disciplined (KeyStoreCache.updateEvents capacity k key) = true := by
  unfold KeyStoreCache.updateEvents
  cases GoMap.get k.cache key with
  | some e => exact ⟨rfl, rfl⟩
  | none =>
      by_cases hfull : GoMap.len k.cache ≥ capacity
      · cases GoList.Back k.pages with
        | some last =>
            simp only [hfull, if_true]
            exact ⟨rfl, rfl⟩
        | none =>
            simp only [hfull, if_true]
            exact ⟨rfl, rfl⟩
      · simp only [hfull, if_false]
        exact ⟨rfl, rfl⟩

/-- C12, the loader is called with the lock free: on every path through `Get`
(hit, miss with a loader that returns, miss with a loader that panics), at
each point where `load` is called the call holds `mu` neither in read mode nor
in write mode; every operation on `mu` is legal and, when the call ends, it
holds nothing (every `RLock` has had its `RUnlock` and every `Lock` its
`Unlock`, the deferred one included); the `Load` operations of the path are
exactly the loader calls of `Get`; every read of the map or the list is made
under a lock and every mutation under the write lock.  The write-locked tail
is balanced in whatever state it runs, as it is for a goroutine that waited in
`Do` for the load of another. -/
theorem loader_called_unlocked {L : Type} (load : L → String → Outcome × L)
    (k : KeyStoreCache) (ls : L) (key : String) :
    (∀ (n : Nat) (key1 : String),
        (KeyStoreCache.GetEvents CacheSize load k ls key).get? n = some (Event.Load key1) →
          Held.after ((KeyStoreCache.GetEvents CacheSize load k ls key).take n) =
            some { readers := 0, writers := 0 }) ∧
      Held.after (KeyStoreCache.GetEvents CacheSize load k ls key) =
        some { readers := 0, writers := 0 } ∧
      (∀ n : Nat,
        Event.disciplinedAt (KeyStoreCache.GetEvents CacheSize load k ls key) n = true) ∧
      Event.loadKeys (KeyStoreCache.GetEvents CacheSize load k ls key) =
        (KeyStoreCache.Get load k ls key).loads ∧
      (∀ (k2 : KeyStoreCache) (key2 : String),
        Held.after (KeyStoreCache.updateEvents CacheSize k2 key2) =
            some { readers := 0, writers := 0 } ∧
          ∀ n : Nat, Event.disciplinedAt (KeyStoreCache.updateEvents CacheSize k2 key2) n = true) := by
  have hok := KeyStoreCache.GetEvents_ok CacheSize load k ls key
  have hd := Event.disciplinedAt_of_disciplined _ hok.2
  refine ⟨?_, hok.1, hd, KeyStoreCache.GetEvents_loadKeys CacheSize load k ls key, ?_⟩
  · intro n key1 hget
    exact Event.disciplinedAt_load _ n key1 hget (hd n)
  · intro k2 key2
    have h2 := KeyStoreCache.updateEvents_ok CacheSize k2 key2
    exact ⟨h2.1, Event.disciplinedAt_of_disciplined _ h2.2⟩

/-! ### The reference model -/

theorem distinct_nodup (l : List String) : (distinct l).Nodup := by
  induction l with
  | nil => simp [distinct]
  | cons x xs ih =>
      simp only [distinct, List.nodup_cons, List.mem_filter, decide_eq_true_eq, ne_eq,
        not_true_eq_false, and_false, not_false_eq_true, true_and]
      exact List.Nodup.filter _ ih

theorem mostRecentFirst_snoc (keys : List String) (key : String) :
    mostRecentFirst (keys ++ [key]) =
      key :: (mostRecentFirst keys).filter (fun y => decide (y ≠ key)) := by
  simp [mostRecentFirst, distinct]

theorem take_filter_of_not_mem (key : String) (r : List String) :
    ∀ n : Nat, key ∉ r.take n →
      (r.filter (fun y => decide (y ≠ key))).take n = r.take n := by
  induction r with
  | nil => intro n _; simp
  | cons x xs ih =>
      intro n hn
      cases n with
      | zero => simp
      | succ n =>
          simp only [List.take_succ_cons, List.mem_cons, not_or] at hn
          have hx : x ≠ key := fun h => hn.1 h.symm
          rw [List.filter_cons_of_pos (by simpa using hx)]
          simp only [List.take_succ_cons]
          rw [ih n hn.2]

theorem take_filter_of_mem (key : String) (r : List String) :
    ∀ n : Nat, r.Nodup → key ∈ r.take (n + 1) →
      (r.filter (fun y => decide (y ≠ key))).take n =
        (r.take (n + 1)).filter (fun y => decide (y ≠ key)) := by
  induction r with
  | nil => intro n _ h; simp at h
  | cons x xs ih =>
      intro n hnd hin
      have hnd2 := List.nodup_cons.mp hnd
      by_cases hx : x = key
      · subst hx
        have hnot : ∀ m, x ∉ xs.take m := fun m h => hnd2.1 (List.mem_of_mem_take h)
        rw [List.filter_cons_of_neg (by simp), List.take_succ_cons,
          List.filter_cons_of_neg (by simp), take_filter_of_not_mem x xs n (hnot n)]
        symm
        rw [List.filter_eq_self]
        intro a ha
        have : a ≠ x := fun h => hnot n (h ▸ ha)
        simpa using this
      · simp only [List.take_succ_cons, List.mem_cons] at hin
        have hin2 : key ∈ xs.take n := by
          rcases hin with h | h
          · exact absurd h.symm hx
          · exact h
        cases n with
        | zero => simp at hin2
        | succ n =>
            rw [List.filter_cons_of_pos (by simpa using hx), List.take_succ_cons,
              List.take_succ_cons, List.filter_cons_of_pos (by simpa using hx),
              ih n hnd2.2 hin2]

theorem dropLast_take_of_le (r : List String) (n : Nat) (h : n ≤ r.length) :
    (r.take n).dropLast = r.take (n - 1) := by
  rw [List.dropLast_eq_take, List.take_take, List.length_take]
  congr 1
  omega

theorem not_mem_take_pred (key : String) (r : List String) (n : Nat) (h : key ∉ r.take n) :
    key ∉ r.take (n - 1) := by
  intro hin
  apply h
  have : r.take (n - 1) = (r.take n).take (n - 1) := by
    rw [List.take_take]
    congr 1
    omega
  rw [this] at hin
  exact List.mem_of_mem_take hin
/-! ### The cache refines the reference model -/

theorem KeyStoreCache.GetAt_isReturned {L : Type} (capacity : Nat)
    (load : L → String → Outcome × L) (k : KeyStoreCache) (ls : L) (key : String)
    (h : (load ls key).1.isReturned = true) :
    (KeyStoreCache.GetAt capacity load k ls key).out.isReturned = true := by
  cases hlook : KeyStoreCache.lookup k key with
  | some e =>
      rw [KeyStoreCache.GetAt_hit capacity load k ls key e hlook]
      rfl
  | none =>
      rcases hl : load ls key with ⟨o, ls1⟩
      rw [hl] at h
      cases o with
      | panicked err => simp [Outcome.isReturned] at h
      | returned val =>
          rw [KeyStoreCache.GetAt_miss capacity load k ls key val ls1 hlook hl]
          rfl

/-- One access: if the list holds the first `capacity` keys of a recency order
`r`, then after a returning `Get(key)` it holds the first `capacity` keys of
the order with `key` moved to the front. -/
theorem Inv.GetAt_keys_take {L : Type} {capacity : Nat} {k : KeyStoreCache}
    (h : Inv capacity k) (hcap : 1 ≤ capacity) (load : L → String → Outcome × L) (ls : L)
    (key : String) (r : List String) (hnd : r.Nodup)
    (hk : GoList.keys k.pages = r.take capacity)
    (hr : (KeyStoreCache.GetAt capacity load k ls key).out.isReturned = true) :
    GoList.keys (KeyStoreCache.GetAt capacity load k ls key).k.pages =
      (key :: r.filter (fun y => decide (y ≠ key))).take capacity := by
  obtain ⟨n, rfl⟩ : ∃ n, capacity = n + 1 := ⟨capacity - 1, by omega⟩
  rw [List.take_succ_cons]
  by_cases hin : key ∈ GoList.keys k.pages
  · rw [h.GetAt_hit_keys load ls key hin, hk]
    rw [hk] at hin
    rw [take_filter_of_mem key r n hnd hin]
  · rw [h.GetAt_miss_keys load ls key hin hr]
    rw [hk] at hin
    have hlen : k.pages.length = (r.take (n + 1)).length := by
      have := congrArg List.length hk
      simpa [GoList.keys] using this
    rw [List.length_take] at hlen
    have hnot := not_mem_take_pred key r (n + 1) hin
    simp only [Nat.add_sub_cancel] at hnot
    rw [take_filter_of_not_mem key r n hnot]
    congr 1
    by_cases hfull : n + 1 ≤ k.pages.length
    · rw [h.evict_keys_of_full hfull, hk, dropLast_take_of_le r (n + 1) (by omega)]
      rfl
    · rw [h.evict_keys_of_lt (by omega), hk]
      have hrl : r.length ≤ n := by omega
      rw [List.take_of_length_le (by omega), List.take_of_length_le hrl]

/-- The list of the cache after a run in which every load returns is the
reference model of the keys of the run. -/
theorem runAt_keys_reference {L : Type} (capacity : Nat) (hcap : 1 ≤ capacity)
    (load : L → String → Outcome × L)
    (hret : ∀ (ls : L) (key : String), (load ls key).1.isReturned = true)
    (ls : L) (keys : List String) :
    GoList.keys (runAt capacity load New ls keys).1.pages = lruReference capacity keys := by
  induction keys using List.reverseRecOn with
  | nil => simp [runAt, KeyStore.New, GoList.keys, lruReference, mostRecentFirst, distinct]
  | append_singleton init key ih =>
      have hinv : Inv capacity (runAt capacity load New ls init).1 :=
        Inv.runAt load init New ls (Inv.New capacity)
      rw [runAt_append, runAt_singleton]
      simp only
      rw [hinv.GetAt_keys_take hcap load _ key (mostRecentFirst init) (distinct_nodup _) ih
        (KeyStoreCache.GetAt_isReturned capacity load _ _ key (hret _ key))]
      unfold lruReference
      rw [mostRecentFirst_snoc]

theorem Inv.GetAt_values {L : Type} {capacity : Nat} {k : KeyStoreCache} (h : Inv capacity k)
    (load : L → String → Outcome × L) (f : String → String)
    (hdet : ∀ (ls : L) (key : String), (load ls key).1 = Outcome.returned (f key))
    (ls : L) (key : String)
    (hv : ∀ e ∈ k.pages, e.Value.Value = f e.Value.Key) :
    ∀ e ∈ (KeyStoreCache.GetAt capacity load k ls key).k.pages, e.Value.Value = f e.Value.Key := by
  cases hlook : KeyStoreCache.lookup k key with
  | some e0 =>
      rw [h.GetAt_hit_eq load ls key e0 hlook]
      intro e he
      simp only [List.mem_cons, List.mem_filter] at he
      rcases he with rfl | he
      · exact hv _ ((h.get_iff key _).mp hlook).1
      · exact hv e he.1
  | none =>
      rcases hl : load ls key with ⟨o, ls1⟩
      have ho : o = Outcome.returned (f key) := by
        have := hdet ls key
        rw [hl] at this
        exact this
      subst ho
      rw [h.GetAt_miss_eq load ls key (f key) ls1 hlook hl]
      intro e he
      simp only [List.mem_cons] at he
      rcases he with rfl | he
      · rfl
      · exact hv e (h.evict.2.2.subset he)

theorem runAt_values {L : Type} (capacity : Nat) (load : L → String → Outcome × L)
    (f : String → String)
    (hdet : ∀ (ls : L) (key : String), (load ls key).1 = Outcome.returned (f key))
    (keys : List String) :
    ∀ (k : KeyStoreCache) (ls : L), Inv capacity k →
      (∀ e ∈ k.pages, e.Value.Value = f e.Value.Key) →
      ∀ e ∈ (runAt capacity load k ls keys).1.pages, e.Value.Value = f e.Value.Key := by
  induction keys with
  | nil => intro k ls _ hv; exact hv
  | cons key rest ih =>
      intro k ls hinv hv
      exact ih _ _ (hinv.GetAt load ls key) (hinv.GetAt_values load f hdet ls key hv)

/-- C13, full LRU characterisation: for a loader that is a function `f` of the
key (whatever state it carries), after a sequential run of `Get` from `New`
over any sequence of keys, the keys of `pages` from front to back are the
reference model `lruReference CacheSize` of the sequence, that is its distinct
keys ordered by most recent access first and truncated to the first
`CacheSize`; and the value of every entry is `f` of its key. -/
theorem lru_refines_reference {L : Type} (load : L → String → Outcome × L)
    (f : String → String)
    (hdet : ∀ (ls : L) (key : String), (load ls key).1 = Outcome.returned (f key))
    (ls : L) (keys : List String) :
    GoList.keys (run load New ls keys).1.pages = lruReference CacheSize keys ∧
      ∀ e ∈ (run load New ls keys).1.pages, e.Value.Value = f e.Value.Key := by
  constructor
  · apply runAt_keys_reference CacheSize (by decide) load
    intro ls1 key
    rw [hdet]
    rfl
  · exact runAt_values CacheSize load f hdet keys New ls (Inv.New CacheSize)
      (by simp [KeyStore.New])

/-- Witness of C13: the loader `echo`, a function of the key, and the 101 keys
of lengths 0 to 100. -/
theorem lru_refines_reference_witness :
    (∀ (ls : Unit) (key : String), (echo ls key).1 = Outcome.returned (id key)) ∧
      GoList.keys (run echo New () (sampleKeys 101)).1.pages =
        lruReference CacheSize (sampleKeys 101) :=
  ⟨fun _ _ => rfl, (lru_refines_reference echo id (fun _ _ => rfl) () (sampleKeys 101)).1⟩

/-- C14, `Get` is transparent: for a loader that is a function `f` of the key,
in every state that a sequential run of `Get` with that loader reaches from
`New`, `Get(key)` returns exactly `f key`, on a hit as on a miss. -/
theorem get_transparent {L : Type} (load : L → String → Outcome × L) (f : String → String)
    (hdet : ∀ (ls : L) (key : String), (load ls key).1 = Outcome.returned (f key))
    (ls : L) (keys : List String) (ls2 : L) (key : String) :
    (KeyStoreCache.Get load (run load New ls keys).1 ls2 key).out =
      Outcome.returned (f key) := by
  have hinv : Inv CacheSize (run load New ls keys).1 :=
    Inv.runAt load keys New ls (Inv.New CacheSize)
  have hv : ∀ e ∈ (run load New ls keys).1.pages, e.Value.Value = f e.Value.Key :=
    runAt_values CacheSize load f hdet keys New ls (Inv.New CacheSize) (by simp [KeyStore.New])
  unfold KeyStoreCache.Get
  cases hlook : KeyStoreCache.lookup (run load New ls keys).1 key with
  | some e =>
      rw [KeyStoreCache.GetAt_hit CacheSize load _ ls2 key e hlook]
      have he := (hinv.get_iff key e).mp hlook
      simp only
      rw [hv e he.1, he.2]
  | none =>
      rcases hl : load ls2 key with ⟨o, ls1⟩
      have ho : o = Outcome.returned (f key) := by
        have := hdet ls2 key
        rw [hl] at this
        exact this
      subst ho
      rw [hinv.GetAt_miss_eq load ls2 key (f key) ls1 hlook hl]

/-- Witness of C14: the loader `echo`; a hit on `"a"` and a miss on `"b"` after
`Get("a")`. -/
theorem get_transparent_witness :
    (∀ (ls : Unit) (key : String), (echo ls key).1 = Outcome.returned (id key)) ∧
      (KeyStoreCache.Get echo (run echo New () ["a"]).1 () "a").out = Outcome.returned "a" ∧
      (KeyStoreCache.Get echo (run echo New () ["a"]).1 () "b").out = Outcome.returned "b" :=
  ⟨fun _ _ => rfl, get_transparent echo id (fun _ _ => rfl) () ["a"] () "a",
    get_transparent echo id (fun _ _ => rfl) () ["a"] () "b"⟩

/-! ## Capacity zero -/

theorem Inv.GetAt_keys_zero {L : Type} {k : KeyStoreCache} (h : Inv 0 k)
    (load : L → String → Outcome × L) (ls : L) (key : String)
    (hr : (KeyStoreCache.GetAt 0 load k ls key).out.isReturned = true) :
    GoList.keys (KeyStoreCache.GetAt 0 load k ls key).k.pages = [key] := by
  have hlen : (GoList.keys k.pages).length ≤ 1 := by
    have := h.len_le
    simpa [GoList.keys] using this
  by_cases hin : key ∈ GoList.keys k.pages
  · rw [h.GetAt_hit_keys load ls key hin]
    cases hp : GoList.keys k.pages with
    | nil => rw [hp] at hin; simp at hin
    | cons x xs =>
        rw [hp] at hin hlen
        have hxs : xs = [] := by
          cases xs with
          | nil => rfl
          | cons y ys => simp at hlen
        subst hxs
        simp only [List.mem_singleton] at hin
        subst hin
        simp
  · rw [h.GetAt_miss_keys load ls key hin hr, h.evict_keys_of_full (Nat.zero_le _)]
    cases hp : GoList.keys k.pages with
    | nil => rfl
    | cons x xs =>
        rw [hp] at hlen
        have hxs : xs = [] := by
          cases xs with
          | nil => rfl
          | cons y ys => simp at hlen
        subst hxs
        rfl

theorem KeyStoreCache.GetAt_repeat_out {L : Type} {capacity : Nat} {k : KeyStoreCache}
    (h : Inv capacity k) (load : L → String → Outcome × L) (ls ls2 : L) (key : String)
    (hr : (KeyStoreCache.GetAt capacity load k ls key).out.isReturned = true) :
    (KeyStoreCache.GetAt capacity load (KeyStoreCache.GetAt capacity load k ls key).k ls2 key).out =
        (KeyStoreCache.GetAt capacity load k ls key).out ∧
      (KeyStoreCache.GetAt capacity load (KeyStoreCache.GetAt capacity load k ls key).k ls2
        key).loads = [] := by
  cases hlook : KeyStoreCache.lookup k key with
  | some e =>
      have h1 := KeyStoreCache.GetAt_hit capacity load k ls key e hlook
      have hlook2 : KeyStoreCache.lookup (KeyStoreCache.GetAt capacity load k ls key).k key =
          some e := by
        rw [h1]
        exact hlook
      rw [KeyStoreCache.GetAt_hit capacity load _ ls2 key e hlook2, h1]
      exact ⟨rfl, rfl⟩
  | none =>
      obtain ⟨val, ls1, hl⟩ :=
        KeyStoreCache.load_returned_of_miss capacity load k ls key hlook hr
      have h1 := h.GetAt_miss_eq load ls key val ls1 hlook hl
      have hlook2 : KeyStoreCache.lookup (KeyStoreCache.GetAt capacity load k ls key).k key =
          some { addr := k.fresh, Value := { Key := key, Value := val } } := by
        rw [h1]
        show GoMap.get _ key = _
        rw [GoMap.get_cons]
        simp
      rw [KeyStoreCache.GetAt_hit capacity load _ ls2 key _ hlook2, h1]
      exact ⟨rfl, rfl⟩

/-- Counterexample to C15 as stated: with the capacity taken to be 0, the cache
holds one entry after `Get("a")` (the list and the map are not empty), and an
immediate second `Get("a")` is a hit that does not call the loader. -/
theorem capacity_zero_retains_one :
    GoList.keys (runAt 0 counting New 0 ["a"]).1.pages = ["a"] ∧
      GoMap.keys (runAt 0 counting New 0 ["a"]).1.cache = ["a"] ∧
      (KeyStoreCache.GetAt 0 counting (runAt 0 counting New 0 ["a"]).1 1 "a").loads = [] ∧
      (runAt 0 counting New 0 ["a", "a"]).2 = 1 := by
  decide

/-- C15 as amended: with the capacity taken to be 0 the cache behaves as with
capacity 1.  After every sequential run from `New` the list and the map hold
at most one entry; after a `Get(key)` that returns they hold exactly the entry
of `key`; an immediate repeat of `Get(key)` is a hit that does not call the
loader and returns the same value; and a `Get` on any other key is a miss
that calls the loader with that key. -/
theorem capacity_zero_keeps_last {L : Type} (load : L → String → Outcome × L) (ls : L)
    (keys : List String) (ls1 ls2 : L) (key : String)
    (hret : (KeyStoreCache.GetAt 0 load (runAt 0 load New ls keys).1 ls1 key).out.isReturned
      = true) :
    (runAt 0 load New ls keys).1.pages.length ≤ 1 ∧
      GoMap.len (runAt 0 load New ls keys).1.cache = (runAt 0 load New ls keys).1.pages.length ∧
      GoList.keys (KeyStoreCache.GetAt 0 load (runAt 0 load New ls keys).1 ls1 key).k.pages =
        [key] ∧
      GoMap.keys (KeyStoreCache.GetAt 0 load (runAt 0 load New ls keys).1 ls1 key).k.cache =
        [key] ∧
      (KeyStoreCache.GetAt 0 load
        (KeyStoreCache.GetAt 0 load (runAt 0 load New ls keys).1 ls1 key).k ls2 key).loads = [] ∧
      (KeyStoreCache.GetAt 0 load
        (KeyStoreCache.GetAt 0 load (runAt 0 load New ls keys).1 ls1 key).k ls2 key).out =
        (KeyStoreCache.GetAt 0 load (runAt 0 load New ls keys).1 ls1 key).out ∧
      (∀ key2 : String, key2 ≠ key →
        (KeyStoreCache.GetAt 0 load
          (KeyStoreCache.GetAt 0 load (runAt 0 load New ls keys).1 ls1 key).k ls2 key2).loads =
          [key2]) := by
  have hinv : Inv 0 (runAt 0 load New ls keys).1 := Inv.runAt load keys New ls (Inv.New 0)
  have hinv1 := hinv.GetAt load ls1 key
  have hkeys := hinv.GetAt_keys_zero load ls1 key hret
  have hrep := KeyStoreCache.GetAt_repeat_out hinv load ls1 ls2 key hret
  refine ⟨?_, hinv.len_eq, hkeys, ?_, hrep.2, hrep.1, ?_⟩
  · have := hinv.len_le
    simpa using this
  · have hp := hinv1.cache_keys_perm
    rw [hkeys] at hp
    exact List.perm_singleton.mp hp
  · intro key2 hne
    have hnone : KeyStoreCache.lookup
        (KeyStoreCache.GetAt 0 load (runAt 0 load New ls keys).1 ls1 key).k key2 = none := by
      rw [hinv1.lookup_none_iff, hkeys]
      simpa using hne
    exact (KeyStoreCache.GetAt_loads_of_miss 0 load _ ls2 key2 hnone).1

/-- Witness of C15 as amended: the loader `counting`, a cache that has served
`"a"`, then `Get("b")` twice and `Get("a")`. -/
theorem capacity_zero_keeps_last_witness :
    (KeyStoreCache.GetAt 0 counting (runAt 0 counting New 0 ["a"]).1 1 "b").out.isReturned
        = true ∧
      GoList.keys (KeyStoreCache.GetAt 0 counting (runAt 0 counting New 0 ["a"]).1 1 "b").k.pages
        = ["b"] ∧
      (KeyStoreCache.GetAt 0 counting
        (KeyStoreCache.GetAt 0 counting (runAt 0 counting New 0 ["a"]).1 1 "b").k 2 "b").loads
        = [] :=
  ⟨by decide,
    (capacity_zero_keeps_last counting 0 ["a"] 1 2 "b" (by decide)).2.2.1,
    (capacity_zero_keeps_last counting 0 ["a"] 1 2 "b" (by decide)).2.2.2.2.1⟩

end KeyStore

namespace ProducerConsumer

theorem Consistent.start (tweets : List Tweet) : Consistent tweets (start tweets) where
  tweets_eq := by simp [ProducerConsumer.start, Producer.holding]
  lines_eq := by simp [ProducerConsumer.start, Consumer.owing]
  eof := by simp [ProducerConsumer.start, Producer.pastLoop]
  closed_iff := by simp [ProducerConsumer.start, Producer.hasClosed]
  drained := by simp [ProducerConsumer.start, Consumer.pastLoop]
  wg_eq := by simp [ProducerConsumer.start]
  woken := by simp [ProducerConsumer.start]

theorem consistent_iff (tweets : List Tweet) (s : State) :
    Consistent tweets s ↔
      tweets = s.sent ++ s.producer.holding ++ s.stream ∧
      s.sent.map line = s.out ++ s.consumer.owing ∧
      (s.producer.pastLoop = true → s.stream = []) ∧
      s.closed = s.producer.hasClosed ∧
      (s.consumer.pastLoop = true → s.closed = true) ∧
      s.wg = (if s.producer = Producer.finished then 0 else 1) +
        (if s.consumer = Consumer.finished then 0 else 1) ∧
      (s.waiting = false → s.wg = 0) :=
  ⟨fun h => ⟨h.1, h.2, h.3, h.4, h.5, h.6, h.7⟩,
    fun h => ⟨h.1, h.2.1, h.2.2.1, h.2.2.2.1, h.2.2.2.2.1, h.2.2.2.2.2.1, h.2.2.2.2.2.2⟩⟩

/-- Every step keeps the state consistent and uses up exactly one of the
remaining steps. -/
theorem Consistent.after_step {tweets : List Tweet} {s s1 : State} {a : Action}
    (h : Consistent tweets s) (hs : ProducerConsumer.step s a = some s1) :
    Consistent tweets s1 ∧ remaining s1 + 1 = remaining s := by
  obtain ⟨stream, producer, closed, consumer, wg, waiting, sent, out⟩ := s
  rw [consistent_iff] at h
  obtain ⟨h1, h2, h3, h4, h5, h6, h7⟩ := h
  simp only at h1 h2 h3 h4 h5 h6 h7
  subst h1
  cases a <;> cases producer <;> cases consumer <;> cases closed <;> cases waiting <;>
    cases wg <;> cases stream <;>
    simp only [ProducerConsumer.step, Next, Option.some.injEq, reduceCtorEq] at hs <;>
    (try subst hs) <;>
    simp [Producer.holding, Producer.pastLoop, Producer.hasClosed, remaining,
      Producer.rank, Consumer.owing, Consumer.pastLoop, Consumer.rank, consistent_iff]
      at h2 h3 h4 h5 h6 h7 ⊢ <;>
    (try subst_vars) <;> (try simp_all) <;> (try omega)

/-- A consistent state with steps remaining can take a step: nothing is ever
blocked for good. -/
theorem Consistent.progress {tweets : List Tweet} {s : State} (h : Consistent tweets s)
    (hr : remaining s ≠ 0) :
    ∃ (a : Action) (s1 : State), ProducerConsumer.step s a = some s1 := by
  obtain ⟨stream, producer, closed, consumer, wg, waiting, sent, out⟩ := s
  rw [consistent_iff] at h
  obtain ⟨h1, h2, h3, h4, h5, h6, h7⟩ := h
  cases producer <;> cases consumer <;> cases closed <;> cases waiting <;>
    cases wg <;> cases stream <;>
    simp [Producer.pastLoop, Producer.hasClosed, remaining, Producer.rank, Consumer.pastLoop,
      Consumer.rank] at h3 h4 h5 h6 h7 hr <;>
    first
      | exact ⟨Action.produce, _, rfl⟩
      | exact ⟨Action.transfer, _, rfl⟩
      | exact ⟨Action.close, _, rfl⟩
      | exact ⟨Action.producerDone, _, rfl⟩
      | exact ⟨Action.handle, _, rfl⟩
      | exact ⟨Action.drain, _, rfl⟩
      | exact ⟨Action.consumerDone, _, rfl⟩
      | exact ⟨Action.wake, _, rfl⟩

/-- A consistent state with no step remaining is the final state. -/
theorem Consistent.eq_final {tweets : List Tweet} {s : State} (h : Consistent tweets s)
    (hr : remaining s = 0) : s = final tweets := by
  obtain ⟨stream, producer, closed, consumer, wg, waiting, sent, out⟩ := s
  rw [consistent_iff] at h
  obtain ⟨h1, h2, h3, h4, h5, h6, h7⟩ := h
  cases producer <;> cases consumer <;> cases waiting <;> cases stream <;>
    simp [remaining, Producer.rank, Consumer.rank] at hr
  simp [Producer.holding, Consumer.owing, Producer.hasClosed] at h1 h2 h4 h6
  subst h1 h4 h6
  simp [final, h2]

theorem Consistent.after_exec {tweets : List Tweet} (acts : List Action) :
    ∀ {s s1 : State}, Consistent tweets s → ProducerConsumer.exec s acts = some s1 →
      Consistent tweets s1 ∧ remaining s1 + acts.length = remaining s := by
  induction acts with
  | nil =>
      intro s s1 h hs
      simp only [ProducerConsumer.exec, Option.some.injEq] at hs
      subst hs
      exact ⟨h, rfl⟩
  | cons a rest ih =>
      intro s s1 h hs
      simp only [ProducerConsumer.exec] at hs
      cases hstep : ProducerConsumer.step s a with
      | none => rw [hstep] at hs; simp at hs
      | some s2 =>
          rw [hstep] at hs
          obtain ⟨h2, hr2⟩ := h.after_step hstep
          obtain ⟨h3, hr3⟩ := ih h2 hs
          refine ⟨h3, ?_⟩
          simp only [List.length_cons]
          omega

/-- From every consistent state some schedule leads to the final state. -/
theorem Consistent.completes {tweets : List Tweet} :
    ∀ (n : Nat) (s : State), Consistent tweets s → remaining s = n →
      ∃ acts : List Action, ProducerConsumer.exec s acts = some (final tweets) := by
  intro n
  induction n with
  | zero =>
      intro s h hr
      exact ⟨[], by rw [h.eq_final hr]; rfl⟩
  | succ n ih =>
      intro s h hr
      obtain ⟨a, s1, hstep⟩ := h.progress (by omega)
      obtain ⟨h1, hr1⟩ := h.after_step hstep
      obtain ⟨acts, hacts⟩ := ih s1 h1 (by omega)
      exact ⟨a :: acts, by simp only [ProducerConsumer.exec, hstep]; exact hacts⟩

theorem final_terminal (tweets : List Tweet) (a : Action) : step (final tweets) a = none := by
  cases a <;> rfl

/-- C16, pipeline delivery: for every stream that yields the given tweets and
then `ErrEOF`, and for every schedule of the producer, the consumer and
`main`: the tweets that went over the channel and the lines printed are
always the first ones of the stream, in stream order, and the channel is
closed only after all the tweets went over it; the run has taken exactly as
many steps as the remaining ones lack to `3 * n + 6`, so no schedule is longer
than that; as long as the final state is not reached some step can be taken
(nothing blocks for ever), and a state in which no step can be taken is the
final state: all `n` tweets sent in order, the channel closed, one line per
tweet printed in order, both goroutines ended with the counter of the wait
group at zero, and `wg.Wait()` of `main` returned. -/
theorem pipeline_delivery (tweets : List Tweet) (acts : List Action) (s : State)
    (hs : exec (start tweets) acts = some s) :
    (∃ rest, tweets = s.sent ++ rest) ∧
      (∃ rest, tweets.map line = s.out ++ rest) ∧
      (s.closed = true → s.sent = tweets) ∧
      acts.length + remaining s = 3 * tweets.length + 6 ∧
      (s ≠ final tweets → ∃ (a : Action) (s1 : State), step s a = some s1) ∧
      ((∀ a : Action, step s a = none) → s = final tweets) ∧
      (∃ more : List Action, exec s more = some (final tweets)) ∧
      (∀ a : Action, step (final tweets) a = none) := by
  obtain ⟨hc, hr⟩ := (Consistent.start tweets).after_exec acts hs
  have hprog : s ≠ final tweets → ∃ (a : Action) (s1 : State), step s a = some s1 := by
    intro hne
    apply hc.progress
    intro h0
    exact hne (hc.eq_final h0)
  refine ⟨⟨s.producer.holding ++ s.stream, hc.tweets_eq.trans (List.append_assoc _ _ _)⟩,
    ?_, ?_, ?_, hprog, ?_, hc.completes _ s rfl, final_terminal tweets⟩
  · refine ⟨s.consumer.owing ++ (s.producer.holding ++ s.stream).map line, ?_⟩
    conv_lhs => rw [hc.tweets_eq]
    rw [List.append_assoc, List.map_append, hc.lines_eq, List.append_assoc]
  · intro hclosed
    have hcl := hc.closed_iff
    rw [hclosed] at hcl
    have hpast : s.producer.pastLoop = true := by
      cases hp : s.producer <;> rw [hp] at hcl <;> simp [Producer.hasClosed, Producer.pastLoop] at hcl ⊢
    have hhold : s.producer.holding = [] := by
      cases hp : s.producer <;> rw [hp] at hcl <;> simp [Producer.hasClosed, Producer.holding] at hcl ⊢
    have := hc.tweets_eq
    rw [hc.eof hpast, hhold] at this
    simpa using this.symm
  · have : remaining (start tweets) = 3 * tweets.length + 6 := by
      simp [remaining, ProducerConsumer.start, Producer.rank, Consumer.rank]
    omega
  · intro hnone
    by_contra hne
    obtain ⟨a, s1, hstep⟩ := hprog hne
    rw [hnone a] at hstep
    simp at hstep

open Action in
/-- Witness of C16: two tweets, and a schedule in which the producer reads the
second tweet while the consumer still holds the first. -/
theorem pipeline_delivery_witness :
    exec (start sampleTweets) [produce, transfer, produce] =
        some { stream := [], producer := Producer.sending ⟨"beertocode", false⟩,
               closed := false, consumer := Consumer.handling ⟨"davecheney", true⟩, wg := 2,
               waiting := true, sent := [⟨"davecheney", true⟩], out := [] } ∧
      ∃ more : List Action,
        exec { stream := [], producer := Producer.sending ⟨"beertocode", false⟩,
               closed := false, consumer := Consumer.handling ⟨"davecheney", true⟩, wg := 2,
               waiting := true, sent := [⟨"davecheney", true⟩], out := [] } more =
          some (final sampleTweets) :=
  ⟨by decide,
    (pipeline_delivery sampleTweets [produce, transfer, produce] _ (by decide)).2.2.2.2.2.2.1⟩

end ProducerConsumer
